import Mathlib

/-
  Verification of the site-mirroring pipeline of this repository
  (website_downloader.py / download_musician.py) against its
  natural-language specification.

  The Python code is shallowly embedded: every function below is a direct
  translation of a function (or a few contiguous lines) of the source.
  Strings are Lean Strings, manipulated through explicit List Char
  functions that model the Python str operations used by the code
  (split, strip, lower, startswith, "in", replace, os.path.basename,
  os.path.splitext). HTTP traffic is modelled by explicit outcome values
  fed to the fetch functions; the asyncio interleaving is modelled
  sequentially (one resource processed after the other), which is the
  reading most favourable to the uniqueness claims.
-/

set_option maxRecDepth 8000

namespace SiteMirror

/-! ### Python string-operation models -/

/-- Whitespace characters recognised by Python's str.split() / str.strip(). -/
def isWsChar (c : Char) : Bool :=
  c = ' ' || c = '\t' || c = '\n' || c = '\r' || c = '\x0b' || c = '\x0c'

/-- Python str.strip(): drop whitespace from both ends. -/
def stripWsL (l : List Char) : List Char :=
  ((l.dropWhile isWsChar).reverse.dropWhile isWsChar).reverse

/-- Helper for splitWsL, carrying the (reversed) token being accumulated. -/
def splitWsAux : List Char → List Char → List (List Char)
  | [], acc => if acc.isEmpty then [] else [acc.reverse]
  | c :: rest, acc =>
    if isWsChar c then
      if acc.isEmpty then splitWsAux rest [] else acc.reverse :: splitWsAux rest []
    else splitWsAux rest (c :: acc)

/-- Python str.split() with no argument: maximal runs of non-whitespace. -/
def splitWsL (l : List Char) : List (List Char) := splitWsAux l []

/-- Python str.split(sep) for a single-character separator; "".split(sep) gives a
    singleton empty piece, like Python. -/
def splitCharL (sep : Char) : List Char → List (List Char)
  | [] => [[]]
  | c :: rest =>
    match splitCharL sep rest with
    | [] => [[]]
    | h :: t => if c = sep then [] :: h :: t else (c :: h) :: t

/-- Python sep.join(pieces). -/
def intercalateL (sep : List Char) : List (List Char) → List Char
  | [] => []
  | [x] => x
  | x :: y :: rest => x ++ sep ++ intercalateL sep (y :: rest)

/-- Boolean list-prefix test (Python str.startswith on decomposed strings). -/
def isPrefixL : List Char → List Char → Bool
  | [], _ => true
  | p :: pt, rest =>
    match rest with
    | [] => false
    | c :: ct => p = c && isPrefixL pt ct

/-- Python substring test: pat in l. -/
def containsSeqL (pat : List Char) : List Char → Bool
  | [] => isPrefixL pat []
  | c :: rest => isPrefixL pat (c :: rest) || containsSeqL pat rest

/-- Python sub in s, on Strings. -/
def containsSub (s sub : String) : Bool := containsSeqL sub.data s.data

/-- Python str.startswith, on Strings. -/
def startsWithS (s pre : String) : Bool := isPrefixL pre.data s.data

/-- Python str.lower() (ASCII is all the sources use). -/
def toLowerS (s : String) : String := String.mk (s.data.map Char.toLower)

/-- Python os.path.basename: the part after the last slash. -/
def basenameL (l : List Char) : List Char :=
  (l.reverse.takeWhile (fun c => c ≠ '/')).reverse

/-- Index of the last dot of a filename, if any. -/
def lastDotIdx (name : List Char) : Option Nat :=
  (name.reverse.findIdx? (fun c => c = '.')).map (fun i => name.length - 1 - i)

/-- Python os.path.splitext on a bare filename (no directory part): the
    extension starts at the last dot, unless every character before that dot is
    itself a dot (CPython's all-leading-dots rule, so ".bashrc" has no ext). -/
def splitExtName (name : List Char) : List Char × List Char :=
  match lastDotIdx name with
  | none => (name, [])
  | some pos =>
    if (name.take pos).any (fun c => c ≠ '.') then (name.take pos, name.drop pos)
    else (name, [])

/-- Python os.path.splitext applied to a full path: the extension only ever
    comes from the part after the last slash. -/
def extOfPath (p : List Char) : List Char := (splitExtName (basenameL p)).2

/-- Stem (splitext\[0\]) of a bare filename. -/
def stemOfName (name : List Char) : List Char := (splitExtName name).1

/-- Python str.replace with an empty pattern interleaves rep at every boundary
    ("abc".replace("", "X") is "XaXbXcX"). -/
def replaceEmptyPat (rep : List Char) : List Char → List Char
  | [] => rep
  | c :: rest => rep ++ c :: replaceEmptyPat rep rest

/-- Python str.replace(pat, rep) for a nonempty pattern p :: ps: every
    non-overlapping occurrence, scanning left to right. The fuel argument is
    only there to make the recursion structural; it is called with the length
    of the string, which always suffices since each step consumes at least one
    character. -/
def replaceNeAux (p : Char) (ps rep : List Char) : Nat → List Char → List Char
  | _, [] => []
  | 0, l => l
  | fuel + 1, c :: rest =>
    if isPrefixL (p :: ps) (c :: rest) then
      rep ++ replaceNeAux p ps rep fuel ((c :: rest).drop (ps.length + 1))
    else c :: replaceNeAux p ps rep fuel rest

/-- Python str.replace(pat, rep). -/
def replaceAllL (pat rep : List Char) (l : List Char) : List Char :=
  match pat with
  | [] => replaceEmptyPat rep l
  | p :: ps => replaceNeAux p ps rep l.length l

/-! ### MD5 (hashlib.md5), executable, over UTF-8 bytes

Both downloaders disambiguate filenames with
hashlib.md5(url.encode()).hexdigest()\x5b:8\x5d, so the hash itself is part of
the embedded program. -/

/-- UTF-8 encoding of one character, as byte values. -/
def utf8Bytes (c : Char) : List Nat :=
  let n := c.toNat
  if n < 128 then [n]
  else if n < 2048 then [192 + n / 64, 128 + n % 64]
  else if n < 65536 then [224 + n / 4096, 128 + n / 64 % 64, 128 + n % 64]
  else [240 + n / 262144, 128 + n / 4096 % 64, 128 + n / 64 % 64, 128 + n % 64]

/-- Python str.encode(): UTF-8 bytes of a string. -/
def strBytes (s : String) : List Nat :=
  s.data.foldr (fun c acc => utf8Bytes c ++ acc) []

def M32 : Nat := 4294967296

def add32 (a b : Nat) : Nat := (a + b) % M32

def not32 (x : Nat) : Nat := x ^^^ (M32 - 1)

def rotl32 (x n : Nat) : Nat := ((x <<< n) ||| (x >>> (32 - n))) % M32

/-- Per-round left-rotation amounts of MD5. -/
def md5S : List Nat :=
  [7, 12, 17, 22, 7, 12, 17, 22, 7, 12, 17, 22, 7, 12, 17, 22,
   5, 9, 14, 20, 5, 9, 14, 20, 5, 9, 14, 20, 5, 9, 14, 20,
   4, 11, 16, 23, 4, 11, 16, 23, 4, 11, 16, 23, 4, 11, 16, 23,
   6, 10, 15, 21, 6, 10, 15, 21, 6, 10, 15, 21, 6, 10, 15, 21]

/-- MD5 sine-derived constants, floor(2^32 * abs(sin(i + 1))). -/
def md5K : List Nat :=
  [0xd76aa478, 0xe8c7b756, 0x242070db, 0xc1bdceee, 0xf57c0faf, 0x4787c62a, 0xa8304613, 0xfd469501,
   0x698098d8, 0x8b44f7af, 0xffff5bb1, 0x895cd7be, 0x6b901122, 0xfd987193, 0xa679438e, 0x49b40821,
   0xf61e2562, 0xc040b340, 0x265e5a51, 0xe9b6c7aa, 0xd62f105d, 0x02441453, 0xd8a1e681, 0xe7d3fbc8,
   0x21e1cde6, 0xc33707d6, 0xf4d50d87, 0x455a14ed, 0xa9e3e905, 0xfcefa3f8, 0x676f02d9, 0x8d2a4c8a,
   0xfffa3942, 0x8771f681, 0x6d9d6122, 0xfde5380c, 0xa4beea44, 0x4bdecfa9, 0xf6bb4b60, 0xbebfbc70,
   0x289b7ec6, 0xeaa127fa, 0xd4ef3085, 0x04881d05, 0xd9d4d039, 0xe6db99e5, 0x1fa27cf8, 0xc4ac5665,
   0xf4292244, 0x432aff97, 0xab9423a7, 0xfc93a039, 0x655b59c3, 0x8f0ccc92, 0xffeff47d, 0x85845dd1,
   0x6fa87e4f, 0xfe2ce6e0, 0xa3014314, 0x4e0811a1, 0xf7537e82, 0xbd3af235, 0x2ad7d2bb, 0xeb86d391]

/-- count low-order bytes of n, little-endian. -/
def leBytes (n : Nat) : Nat → List Nat
  | 0 => []
  | k + 1 => n % 256 :: leBytes (n / 256) k

/-- MD5 padding: 0x80, zeros to 56 mod 64, then the 64-bit little-endian
    message bit length. -/
def md5Pad (msg : List Nat) : List Nat :=
  let len := msg.length
  let zeroCount := (56 + 64 - (len + 1) % 64) % 64
  msg ++ [128] ++ List.replicate zeroCount 0 ++ leBytes (len * 8) 8

/-- Group bytes into little-endian 32-bit words. -/
def bytesToWords : List Nat → List Nat
  | b0 :: b1 :: b2 :: b3 :: rest =>
    (b0 + 256 * b1 + 65536 * b2 + 16777216 * b3) :: bytesToWords rest
  | _ => []

/-- The MD5 nonlinear function of round i. -/
def md5F (i b c d : Nat) : Nat :=
  if i < 16 then (b &&& c) ||| (not32 b &&& d)
  else if i < 32 then (d &&& b) ||| (not32 d &&& c)
  else if i < 48 then b ^^^ c ^^^ d
  else c ^^^ (b ||| not32 d)

/-- The MD5 message-word index of round i. -/
def md5G (i : Nat) : Nat :=
  if i < 16 then i
  else if i < 32 then (5 * i + 1) % 16
  else if i < 48 then (3 * i + 5) % 16
  else 7 * i % 16

/-- One MD5 round on the running (a, b, c, d) state. -/
def md5Round (M : List Nat) (st : Nat × Nat × Nat × Nat) (i : Nat) : Nat × Nat × Nat × Nat :=
  let a := st.1
  let b := st.2.1
  let c := st.2.2.1
  let d := st.2.2.2
  let f := add32 (add32 (md5F i b c d) a) (add32 (md5K.getD i 0) (M.getD (md5G i) 0))
  (d, add32 b (rotl32 f (md5S.getD i 0)), b, c)

/-- Process one 64-byte chunk, updating the four hash registers. -/
def md5Chunk (h : Nat × Nat × Nat × Nat) (chunk : List Nat) : Nat × Nat × Nat × Nat :=
  let M := bytesToWords chunk
  let r := (List.range 64).foldl (md5Round M) h
  (add32 h.1 r.1, add32 h.2.1 r.2.1, add32 h.2.2.1 r.2.2.1, add32 h.2.2.2 r.2.2.2)

/-- Split a byte list into 64-byte chunks; the fuel argument makes the
    recursion structural and is instantiated with the list length. -/
def chunks64Aux : Nat → List Nat → List (List Nat)
  | _, [] => []
  | 0, l => [l]
  | fuel + 1, c :: rest => (c :: rest.take 63) :: chunks64Aux fuel (rest.drop 63)

/-- Split a byte list into 64-byte chunks. -/
def chunks64 (l : List Nat) : List (List Nat) := chunks64Aux l.length l

def hexDigitChar (n : Nat) : Char := ("0123456789abcdef").data.getD n '0'

def byteHex (b : Nat) : List Char := [hexDigitChar (b / 16), hexDigitChar (b % 16)]

/-- hashlib.md5(s.encode()).hexdigest(). -/
def md5hex (s : String) : String :=
  let bytes := md5Pad (strBytes s)
  let r := (chunks64 bytes).foldl md5Chunk (0x67452301, 0xefcdab89, 0x98badcfe, 0x10325476)
  let digest := leBytes r.1 4 ++ leBytes r.2.1 4 ++ leBytes r.2.2.1 4 ++ leBytes r.2.2.2 4
  String.mk (digest.foldr (fun b acc => byteHex b ++ acc) [])

/-- hashlib.md5(url.encode()).hexdigest() truncated to its first 8 hex
    characters, the form both downloaders append to filename stems. -/
def md5hex8 (s : String) : String := String.mk ((md5hex s).data.take 8)

/-! ### Resource mapping (a Python dict from URL to local path) -/

/-- The resource mapping: association list in insertion order, modelling the
    Python dict self.resource_mapping. -/
abbrev Mapping := List (String × String)

def mapLookup : Mapping → String → Option String
  | [], _ => none
  | (k, v) :: rest, key => if k = key then some v else mapLookup rest key

/-- Python: key in dict. -/
def mapContains (m : Mapping) (k : String) : Bool := (mapLookup m k).isSome

/-- Python: dict.values(). -/
def mapValues (m : Mapping) : List String := m.map (fun p => p.2)

/-- Python: dict assignment d\x5bk\x5d = v (updates in place, or appends). -/
def mapInsert (m : Mapping) (k v : String) : Mapping :=
  if mapContains m k then m.map (fun p => if p.1 = k then (p.1, v) else p)
  else m ++ [(k, v)]

/-! ### urlparse and mimetypes models -/

/-- Remainder after the first occurrence of pat, if pat occurs. -/
def afterSubstr (pat : List Char) : List Char → Option (List Char)
  | [] => if pat.isEmpty then some [] else none
  | c :: rest =>
    if isPrefixL pat (c :: rest) then some ((c :: rest).drop pat.length)
    else afterSubstr pat rest

/-- urllib.parse.urlparse(url).path for the URL shapes the downloaders see:
    query and fragment are cut off, and for scheme://netloc/... URLs the path
    starts at the first slash after the netloc. -/
def pyUrlPathL (url : List Char) : List Char :=
  let noQuery := (url.takeWhile (fun c => c ≠ '#')).takeWhile (fun c => c ≠ '?')
  match afterSubstr [':', '/', '/'] noQuery with
  | some rest => rest.dropWhile (fun c => c ≠ '/')
  | none => noQuery

def pyUrlPathS (url : String) : String := String.mk (pyUrlPathL url.data)

/-- The extension-to-content-type entries of Python 3.11's mimetypes relevant
    to the URLs considered here; extensions absent from Python's table
    (like .foo) are absent here. -/
def mimeTable : List (String × String) :=
  [(".css", "text/css"), (".js", "application/javascript"), (".jpg", "image/jpeg"),
   (".jpeg", "image/jpeg"), (".png", "image/png"), (".gif", "image/gif"),
   (".svg", "image/svg+xml"), (".webp", "image/webp"), (".ico", "image/vnd.microsoft.icon"),
   (".woff", "font/woff"), (".woff2", "font/woff2"), (".ttf", "font/ttf"),
   (".otf", "font/otf"), (".eot", "application/vnd.ms-fontobject"), (".txt", "text/plain"),
   (".html", "text/html"), (".pdf", "application/pdf")]

/-- mimetypes.guess_type(url)\x5b0\x5d: keyed on the lowercased extension of the
    final path segment (Python runs splitext over the scheme-stripped URL,
    which yields the same extension). -/
def guessType (url : String) : Option String :=
  mapLookup mimeTable (String.mk ((extOfPath url.data).map Char.toLower))

/-- mimetypes.guess_extension(content_type) for the image content types that
    can reach it here. -/
def guessExtension (ct : String) : Option String :=
  mapLookup
    [("image/jpeg", ".jpg"), ("image/png", ".png"), ("image/gif", ".gif"),
     ("image/svg+xml", ".svg"), ("image/webp", ".webp"),
     ("image/vnd.microsoft.icon", ".ico")] ct

/-! ### WebsiteDownloader.get_file_type_info (website_downloader.py 392-415) -/

/-- WebsiteDownloader.get_file_type_info: content type first, URL path
    extension as fallback; an unrecognised content type yields ("other", ""),
    an unrecognised extension with no content type yields none (the Python
    (None, None)). -/
def wdGetFileTypeInfo (contentType : Option String) (path : String) : Option (String × String) :=
  match contentType with
  | some ct =>
    if startsWithS ct "image/" then some ("images", (guessExtension ct).getD ".jpg")
    else if startsWithS ct "text/css" then some ("css", ".css")
    else if startsWithS ct "application/javascript" || startsWithS ct "text/javascript" then
      some ("js", ".js")
    else if startsWithS ct "font/" || startsWithS ct "application/font" then some ("fonts", ".woff")
    else some ("other", "")
  | none =>
    let ext := String.mk (extOfPath path.data)
    if ext = ".css" then some ("css", ext)
    else if ext = ".js" then some ("js", ext)
    else if ext ∈ [".png", ".jpg", ".jpeg", ".gif", ".svg", ".webp", ".ico"] then
      some ("images", ext)
    else if ext ∈ [".woff", ".woff2", ".ttf", ".eot", ".otf"] then some ("fonts", ext)
    else none

/-! ### MusicianDownloader.is_thumbnail and get_local_path
    (download_musician.py 183-219) -/

/-- Outcome of the HEAD probe issued by MusicianDownloader.is_thumbnail:
    either the request raised, or it answered with an optional content-length
    header value. -/
inductive ProbeResult where
  | exc : ProbeResult
  | resp (contentLength : Option String) : ProbeResult
deriving DecidableEq

/-- Python int(s) for the decimal strings a content-length header carries:
    surrounding whitespace tolerated, at least one digit required. -/
def pyIntParse (s : String) : Option Nat :=
  let t := stripWsL s.data
  if t.isEmpty || t.any (fun c => !c.isDigit) then none
  else some (t.foldl (fun n c => n * 10 + (c.toNat - 48)) 0)

/-- MusicianDownloader.is_thumbnail: HEAD the URL, read content-length with
    default 0, answer size < 5 * 1024; any exception (including int() failing
    on a malformed header) is caught by the bare except and gives False. -/
def isThumbnail (probe : ProbeResult) : Bool :=
  match probe with
  | .exc => false
  | .resp none => decide ((0 : Nat) < 5 * 1024)
  | .resp (some s) =>
    match pyIntParse s with
    | none => false
    | some n => decide (n < 5 * 1024)

/-- The filename get_local_path derives from the URL:
    os.path.basename(urlparse(url).path.lstrip(sl)). -/
def musFilename (url : String) : List Char :=
  basenameL ((pyUrlPathL url.data).dropWhile (fun c => c = '/'))

/-- The lowercased extension get_local_path switches on. -/
def musExtLow (url : String) : String :=
  String.mk ((splitExtName (musFilename url)).2.map Char.toLower)

/-- The subdirectory chosen by get_local_path. -/
def musSubdir (probe : ProbeResult) (url : String) : String :=
  let ext := musExtLow url
  if ext ∈ [".css", ".scss"] then "css"
  else if ext ∈ [".js", ".jsx", ".ts"] then "js"
  else if ext ∈ [".jpg", ".jpeg", ".png", ".gif", ".webp", ".svg"] then
    if isThumbnail probe then "images/thumbnails" else "images"
  else if ext ∈ [".woff", ".woff2", ".ttf", ".eot"] then "fonts"
  else "other"

/-- The always-hashed filename stem_md5prefix8 plus extension. -/
def musUniqueName (url : String) : String :=
  String.mk (stemOfName (musFilename url)) ++ "_" ++ md5hex8 url ++ musExtLow url

/-- MusicianDownloader.get_local_path: subdirectory from the lowercased
    extension (with the HEAD probe deciding images vs images/thumbnails) and a
    filename of the form stem_md5prefix8 plus extension. -/
def musGetLocalPath (outputDir : String) (probe : ProbeResult) (url : String) : Option String :=
  if url = "" || startsWithS url "data:" then none
  else some (outputDir ++ "/" ++ musSubdir probe url ++ "/" ++ musUniqueName url)

/-- os.path.relpath(p, root) for the shapes produced above, where p is always
    root ++ "/" ++ rel. -/
def relPathFrom (root p : String) : String :=
  if isPrefixL (root ++ "/").data p.data then String.mk (p.data.drop (root.length + 1))
  else p

/-! ### Fetch outcomes -/

/-- One HTTP attempt as the downloaders observe it: a response with status
    and body bytes, or a raised exception (network error, timeout). -/
inductive FetchOutcome where
  | resp (status : Nat) (body : List Nat) : FetchOutcome
  | exc : FetchOutcome

/-! ### MusicianDownloader.download_single_resource
    (download_musician.py 437-465) and download_resources (427-435) -/

/-- State shared by the musician fetch tasks: the URL-to-relative-path
    mapping and the files written to disk (path with body bytes). -/
structure MusState where
  mapping : Mapping
  disk : List (String × List Nat)
deriving DecidableEq

/-- MusicianDownloader.download_single_resource, sequentially: retries starts
    at 3 and is only ever decremented in the except branch; outcomes gives the
    response to the i-th request; the result is the final state with the
    number of requests performed, or none when the given fuel is exhausted
    without the while loop terminating. -/
def musDownloadSingle (outputDir : String) (probe : ProbeResult) (url : String)
    (outcomes : Nat → FetchOutcome) :
    Nat → Nat → Nat → MusState → Option (MusState × Nat)
  | 0, _, _, _ => none
  | _ + 1, 0, attempt, st => some (st, attempt)
  | fuel + 1, retries + 1, attempt, st =>
    if startsWithS url "data:" || mapContains st.mapping url then some (st, attempt)
    else
      match outcomes attempt with
      | .resp 200 body =>
        if body.length > 0 then
          match musGetLocalPath outputDir probe url with
          | some lp =>
            some ({ mapping := mapInsert st.mapping url (relPathFrom outputDir lp),
                    disk := st.disk ++ [(lp, body)] }, attempt + 1)
          | none => some (st, attempt + 1)
        else some (st, attempt + 1)
      | .resp 404 _ => some (st, attempt + 1)
      | .resp _ _ => musDownloadSingle outputDir probe url outcomes fuel (retries + 1) (attempt + 1) st
      | .exc => musDownloadSingle outputDir probe url outcomes fuel retries (attempt + 1) st

/-- MusicianDownloader.download_resources dispatches a task for every
    collected URL except data: URIs. -/
def musicianQueued (url : String) : Bool := !(startsWithS url "data:")

/-! ### WebsiteDownloader.download_resource (website_downloader.py 28-116) -/

structure WDConfig where
  baseUrl : String
  outputDir : String

/-- WebsiteDownloader per-run state: mapping, the downloaded_urls dedup set,
    and the files written to the output directory (full path with body). -/
structure WDState where
  mapping : Mapping
  downloaded : List String
  disk : List (String × List Nat)
deriving DecidableEq

/-- os.path.exists over the files this run has written (the run starts from a
    clean output directory). -/
def pathExistsOnDisk (st : WDState) (p : String) : Bool := st.disk.any (fun f => f.1 = p)

/-- re.sub(r"t=\x5cd+", "", url): drop every t= followed by at least one
    digit; fuel-structural, called with the length of the string. -/
def subTEqAux : Nat → List Char → List Char
  | _, [] => []
  | 0, l => l
  | fuel + 1, 't' :: '=' :: d :: rest =>
    if d.isDigit then subTEqAux fuel ((d :: rest).dropWhile Char.isDigit)
    else 't' :: subTEqAux fuel ('=' :: d :: rest)
  | fuel + 1, c :: rest => c :: subTEqAux fuel rest

def subTEq (url : String) : String := String.mk (subTEqAux url.data.length url.data)

/-- Python str.rstrip("?&"). -/
def rstripQA (s : String) : String :=
  String.mk ((s.data.reverse.dropWhile (fun c => c = '?' || c = '&')).reverse)

/-- The thumbnail-URL convention test of WebsiteDownloader.download_resource
    line 68. -/
def wdIsThumbnailUrl (url : String) : Bool :=
  containsSub url "thb.tildacdn.net" || containsSub url "/20x/" || containsSub url "/-/resize"

/-- The retry loop of WebsiteDownloader.download_resource: up to three GETs;
    a 200 writes the body (whatever its length), records the URL as
    downloaded and maps it, then breaks; a non-200 response just moves to the
    next attempt; an exception sleeps and retries, returning the original URL
    if it was the last attempt. Returns state, return value, requests made. -/
def wdDownloadLoop (st : WDState) (url localPath fullPath : String)
    (outcomes : Nat → FetchOutcome) : Nat → Nat → WDState × String × Nat
  | attempt, 0 => (st, localPath, attempt)
  | attempt, remaining + 1 =>
    match outcomes attempt with
    | .resp 200 body =>
      ({ mapping := mapInsert st.mapping url localPath,
         downloaded := st.downloaded ++ [url],
         disk := st.disk ++ [(fullPath, body)] }, localPath, attempt + 1)
    | .resp _ _ => wdDownloadLoop st url localPath fullPath outcomes (attempt + 1) remaining
    | .exc =>
      if remaining = 0 then (st, url, attempt + 1)
      else wdDownloadLoop st url localPath fullPath outcomes (attempt + 1) remaining

/-- The URL normalisation at the top of download_resource: relative URLs are
    sent to static.tildacdn.net, and t=digits timestamp parameters are cut
    out. -/
def wdNormUrl (url0 : String) : String :=
  let url1 := if startsWithS url0 "/" then "https://static.tildacdn.net" ++ url0 else url0
  if containsSub url1 "t=" then rstripQA (subTEq url1) else url1

/-- original_filename: basename of the raw URL's parsed path, with any query
    remnant cut at the question mark and empty results replaced by index. -/
def wdOriginalFilename (url0 : String) : String :=
  let f := String.mk ((basenameL (pyUrlPathL url0.data)).takeWhile (fun c => c ≠ '?'))
  if f = "" then "index" else f

/-- Classification of download_resource: content type guessed from the
    normalised URL, get_file_type_info, then the thumbnail-URL rerouting of
    images. none means download_resource returns the URL without fetching. -/
def wdSubdirExt (url0 : String) : Option (String × String) :=
  match wdGetFileTypeInfo (guessType (wdNormUrl url0)) (pyUrlPathS url0) with
  | none => none
  | some (subdir0, ext) =>
    some
      (if wdIsThumbnailUrl (wdNormUrl url0) && subdir0 = "images" then "images/thumbnails"
       else subdir0, ext)

/-- The local path download_resource first tries: subdir, stem of the
    original filename, classified extension. -/
def wdPlainName (url0 : String) : Option String :=
  (wdSubdirExt url0).map
    (fun se => se.1 ++ "/" ++ (String.mk (stemOfName (wdOriginalFilename url0).data) ++ se.2))

/-- The hash-suffixed fallback path (also the path always used for
    noroot.png): subdir, stem, underscore, md5 prefix of the normalised URL,
    extension. -/
def wdHashName (url0 : String) : Option String :=
  (wdSubdirExt url0).map
    (fun se => se.1 ++ "/" ++
      (String.mk (stemOfName (wdOriginalFilename url0).data) ++ "_" ++ md5hex8 (wdNormUrl url0) ++ se.2))

/-- The filename allocation of download_resource, given the classified
    subdirectory and extension: noroot.png is always hash-suffixed; otherwise
    the plain stem-based candidate is used unless it already exists on disk
    or is already one of the mapped local paths, in which case the md5 prefix
    of the normalised URL is appended to the stem. -/
def wdAllocLocalPath (cfg : WDConfig) (st : WDState) (url0 : String) (subdir ext : String) :
    String :=
  let base := String.mk (stemOfName (wdOriginalFilename url0).data)
  let plainLp := subdir ++ "/" ++ (base ++ ext)
  let hashLp := subdir ++ "/" ++ (base ++ "_" ++ md5hex8 (wdNormUrl url0) ++ ext)
  if wdOriginalFilename url0 = "noroot.png" then hashLp
  else if pathExistsOnDisk st (cfg.outputDir ++ "/" ++ plainLp) ||
      plainLp ∈ mapValues st.mapping then hashLp
  else plainLp

/-- WebsiteDownloader.download_resource: URL normalisation, classification,
    thumbnail routing, filename allocation with the hash fallback, dedup
    check, then the retry loop. Returns final state, Python return value and
    the number of requests made. -/
def wdDownloadResource (cfg : WDConfig) (st : WDState) (url0 : String)
    (outcomes : Nat → FetchOutcome) : WDState × String × Nat :=
  let url := wdNormUrl url0
  if url = cfg.baseUrl || startsWithS url "data:" then (st, url, 0)
  else
    match wdSubdirExt url0 with
    | none => (st, url, 0)
    | some (subdir, ext) =>
      let localPath := wdAllocLocalPath cfg st url0 subdir ext
      let fullPath := cfg.outputDir ++ "/" ++ localPath
      if url ∈ st.downloaded then (st, localPath, 0)
      else wdDownloadLoop st url localPath fullPath outcomes 0 3

/-- A sequential run of WebsiteDownloader fetch tasks (the interleaving most
    favourable to the path-uniqueness claim): each URL is processed to
    completion with its own outcome sequence. -/
def wdRunAll (cfg : WDConfig) (items : List (String × (Nat → FetchOutcome))) (st : WDState) :
    WDState :=
  items.foldl (fun s it => (wdDownloadResource cfg s it.1 it.2).1) st


/-! ### Document model and the two process_html rewrite passes

The BeautifulSoup tree is modelled as the list of its elements in document
order (tag name and attribute list); find_all visits exactly these elements.
The claims under verification concern attribute values and the resource
mapping, not the nesting structure, so the insertion position of the
viewport meta tag and of the trailing init script is simplified to the front
and back of the list. -/

structure Elem where
  tag : String
  attrs : List (String × String)
deriving DecidableEq

abbrev Doc := List Elem

/-- element.get(a): the attribute value if present. -/
def Elem.getAttr (e : Elem) (a : String) : Option String := mapLookup e.attrs a

/-- Python truthiness of element.get(a): present and nonempty. -/
def Elem.getTruthy (e : Elem) (a : String) : Option String :=
  match mapLookup e.attrs a with
  | some v => if v = "" then none else some v
  | none => none

/-- element\x5ba\x5d = v. -/
def Elem.setAttr (e : Elem) (a v : String) : Elem :=
  { e with attrs := mapInsert e.attrs a v }

/-! ### srcset rewriting (download_musician.py 295-303, website_downloader.py
    182-190; the two code blocks are identical) -/

/-- The srcset for-loop: each comma-separated entry is stripped and
    whitespace-split into src and descriptor tokens; a mapped src is re-emitted
    as the local path, one space, and the space-joined descriptor; an unmapped
    src contributes nothing. An entry with no tokens makes the unpacking
    src, *desc = ... raise ValueError, modelled as none. -/
def srcsetEntryLoop (m : Mapping) : List (List Char) → Option (List (List Char))
  | [] => some []
  | e :: es =>
    match splitWsL (stripWsL e) with
    | [] => none
    | src :: desc =>
      match mapLookup m (String.mk src) with
      | some p => (srcsetEntryLoop m es).map (fun r => (p.data ++ ' ' :: intercalateL [' '] desc) :: r)
      | none => srcsetEntryLoop m es

/-- The full srcset handling: split on commas, rebuild, and reassign the
    attribute only when the rebuilt list is nonempty (if new_srcset: ...);
    returns the resulting attribute value, or none when the loop raised. -/
def rewriteSrcset (m : Mapping) (s : String) : Option String :=
  match srcsetEntryLoop m (splitCharL ',' s.data) with
  | none => none
  | some newList =>
    if newList.isEmpty then some s
    else some (String.mk (intercalateL [',', ' '] newList))

/-! ### style background-image rewriting (download_musician.py 313-321,
    website_downloader.py 161-170; identical code) -/

/-- The lazy group of re.search(r"background-image:\s*url\((quote?)(.*?)(quote?)\)"):
    the shortest run of non-newline characters after which an optional quote
    and a closing parenthesis follow. -/
def bgLazyCapture : List Char → Option (List Char)
  | [] => none
  | c :: rest =>
    if c = ')' then some []
    else if (c = '\'' || c = '"') && rest.head? = some ')' then some []
    else if c = '\n' then none
    else (bgLazyCapture rest).map (fun g => c :: g)

/-- Attempt to match the regex tail right after the literal
    "background-image:": optional whitespace, "url(", an optional opening
    quote, then the lazy group. -/
def bgAfterMatch (l : List Char) : Option (List Char) :=
  let l1 := l.dropWhile isWsChar
  if isPrefixL ['u', 'r', 'l', '('] l1 then
    let l2 := l1.drop 4
    let l3 := if l2.head? = some '\'' || l2.head? = some '"' then l2.tail else l2
    bgLazyCapture l3
  else none

/-- re.search for the background-image pattern: leftmost position where the
    whole pattern matches, returning group(1). -/
def searchBgUrl : List Char → Option (List Char)
  | [] => none
  | c :: rest =>
    match
      (if isPrefixL ("background-image:".data) (c :: rest) then
        bgAfterMatch ((c :: rest).drop ("background-image:".data).length)
      else none) with
    | some g => some g
    | none => searchBgUrl rest

/-- The per-element style rewrite: extract the first background-image URL; if
    it is mapped, style.replace(original_url, new_url) — Python's replace,
    which substitutes every occurrence. -/
def rewriteStyleAttr (m : Mapping) (style : String) : String :=
  match searchBgUrl style.data with
  | none => style
  | some g =>
    match mapLookup m (String.mk g) with
    | some newUrl => String.mk (replaceAllL g newUrl.data style.data)
    | none => style

/-- The loop over elements whose style attribute mentions background-image
    (both downloaders, identical code). -/
def styleBgPass (m : Mapping) (d : Doc) : Doc :=
  d.map (fun e =>
    match e.getTruthy "style" with
    | some st =>
      if containsSub st "background-image" then e.setAttr "style" (rewriteStyleAttr m st)
      else e
    | none => e)

/-! ### The attribute rule tables of the two process_html functions -/

/-- One rule of the rewrite table: a single attribute name, the special
    Python set literal srcSrcset (compared by the code with
    attr == set of src and srcset to trigger srcset handling), or a plain set
    of attribute names. -/
inductive AttrSpec where
  | single (a : String) : AttrSpec
  | srcSrcset : AttrSpec
  | attrset (as : List String) : AttrSpec

/-- Rewrite one truthy attribute through the mapping, leaving it unchanged
    when unmapped. -/
def rewritePlainAttr (m : Mapping) (e : Elem) (a : String) : Elem :=
  match e.getTruthy a with
  | some url =>
    match mapLookup m url with
    | some lp => e.setAttr a lp
    | none => e
  | none => e

/-- Apply one table rule to one element (the element already filtered by
    tag). For the srcSrcset rule the srcset attribute is rebuilt first when
    truthy (none when that raises), then src and srcset are rewritten as
    plain attributes like every other rule. -/
def rewriteElemWithSpec (m : Mapping) (spec : AttrSpec) (e : Elem) : Option Elem :=
  match spec with
  | .single a => some (rewritePlainAttr m e a)
  | .attrset as => some (as.foldl (rewritePlainAttr m) e)
  | .srcSrcset =>
    match e.getTruthy "srcset" with
    | some v =>
      match rewriteSrcset m v with
      | none => none
      | some nv => some (["src", "srcset"].foldl (rewritePlainAttr m) (e.setAttr "srcset" nv))
    | none => some (["src", "srcset"].foldl (rewritePlainAttr m) e)

/-- Apply one table rule across the document (soup.find_all(tag)). -/
def rewriteDocForSpec (m : Mapping) (tag : String) (spec : AttrSpec) : Doc → Option Doc
  | [] => some []
  | e :: rest =>
    match (if e.tag = tag then rewriteElemWithSpec m spec e else some e) with
    | none => none
    | some e1 => (rewriteDocForSpec m tag spec rest).map (fun r => e1 :: r)

/-- The outer loop over the rule table. -/
def rewriteTablePass (m : Mapping) : List (String × AttrSpec) → Doc → Option Doc
  | [], d => some d
  | (tag, spec) :: rest, d =>
    match rewriteDocForSpec m tag spec d with
    | none => none
    | some d1 => rewriteTablePass m rest d1

/-- The rule table of MusicianDownloader.process_html (lines 273-292). -/
def musAttrTable : List (String × AttrSpec) :=
  [("link", .single "href"), ("script", .single "src"), ("img", .single "src"),
   ("source", .srcSrcset), ("meta", .single "content"),
   ("div", .attrset ["data-original", "data-content-cover-bg", "data-img-zoom",
     "data-img-zoom-url", "data-zoomable", "data-zoomable-url", "data-zoom-target",
     "data-original-item", "data-animate-style", "data-animate-chain"]),
   ("a", .attrset ["data-content-popup-img-url"])]

/-- The rule table of WebsiteDownloader.process_html (lines 173-180). -/
def wdAttrTable : List (String × AttrSpec) :=
  [("link", .single "href"), ("script", .single "src"), ("img", .single "src"),
   ("source", .srcSrcset), ("meta", .single "content"),
   ("div", .attrset ["data-original", "data-content-cover-bg", "data-img-zoom"])]

/-- The meta viewport tag MusicianDownloader.process_html inserts. -/
def metaViewportElem : Elem :=
  { tag := "meta", attrs := [("name", "viewport"), ("content", "width=device-width, initial-scale=1.0")] }

/-- The initialization script element appended by
    MusicianDownloader.process_html (its body is free text, irrelevant to the
    claims). -/
def musInitScriptElem : Elem := { tag := "script", attrs := [] }

/-- MusicianDownloader.process_html (lines 259-376): insert the viewport
    meta, run the rule table, then the style background pass, then append the
    init script. The mapping is threaded through and returned so that
    mutation claims about it are expressible; none signals the srcset
    ValueError. -/
def musProcessHtml (m : Mapping) (d : Doc) : Option (Doc × Mapping) :=
  let d1 := if d.any (fun e => e.tag = "head") then metaViewportElem :: d else d
  match rewriteTablePass m musAttrTable d1 with
  | none => none
  | some d2 => some (styleBgPass m d2 ++ [musInitScriptElem], m)

/-! ### WebsiteDownloader.process_html (lines 124-198) -/

/-- The Tilda-script step (lines 129-143), one element at a time: a script
    whose src mentions tilda is resolved against static.tildacdn.net and, if
    the URL is not yet mapped, it is queued for download, mapped to
    js/basename, and the src attribute is rewritten. -/
def wdTildaScriptFold (acc : Doc × Mapping × List String) (e : Elem) : Doc × Mapping × List String :=
  let d := acc.1
  let m := acc.2.1
  let res := acc.2.2
  if e.tag = "script" then
    match e.getTruthy "src" with
    | some src =>
      if containsSub (toLowerS src) "tilda" then
        let url := if startsWithS src "http" then src else "https://static.tildacdn.net" ++ src
        if mapContains m url then (d ++ [e], m, res)
        else
          let lp := "js/" ++ String.mk (basenameL (pyUrlPathS url).data)
          (d ++ [e.setAttr "src" lp], mapInsert m url lp, res ++ [url])
      else (d ++ [e], m, res)
    | none => (d ++ [e], m, res)
  else (d ++ [e], m, res)

def wdTildaScriptStep (m : Mapping) (res : List String) (d : Doc) : Doc × Mapping × List String :=
  d.foldl wdTildaScriptFold ([], m, res)

/-- Remove meta tags whose content mentions tildacdn (lines 146-148). -/
def wdMetaRemoveStep (d : Doc) : Doc :=
  d.filter (fun e =>
    !(e.tag = "meta" &&
      (match e.getTruthy "content" with
       | some c => containsSub c "tildacdn"
       | none => false)))

/-- Remove links whose href mentions tildafavicon (lines 151-153). -/
def wdFaviconRemoveStep (d : Doc) : Doc :=
  d.filter (fun e =>
    !(e.tag = "link" &&
      (match e.getTruthy "href" with
       | some h => containsSub h "tildafavicon"
       | none => false)))

/-- Strip attributes whose (lowercased) name mentions tilda from every
    element (lines 156-159). -/
def wdStripTildaAttrs (d : Doc) : Doc :=
  d.map (fun e => { e with attrs := e.attrs.filter (fun p => !containsSub (toLowerS p.1) "tilda") })

/-- WebsiteDownloader.process_html: Tilda script mapping insertion, meta and
    favicon removal, tilda-attribute stripping, the style background pass,
    then the rule table. Returns the rewritten document with the (possibly
    grown) mapping and queue; none signals the srcset ValueError. -/
def wdProcessHtml (m : Mapping) (res : List String) (d : Doc) :
    Option (Doc × Mapping × List String) :=
  let s1 := wdTildaScriptStep m res d
  let d1 := s1.1
  let m1 := s1.2.1
  let res1 := s1.2.2
  let d4 := wdStripTildaAttrs (wdFaviconRemoveStep (wdMetaRemoveStep d1))
  let d5 := styleBgPass m1 d4
  match rewriteTablePass m1 wdAttrTable d5 with
  | none => none
  | some d6 => some (d6, m1, res1)


/-! ### Shared concrete fixtures for counterexample runs -/

/-- A run configuration: the base URL and output directory play no special
    role in the counterexamples beyond being fixed. -/
def exCfg : WDConfig := { baseUrl := "https://example.com", outputDir := "out" }

/-- The clean initial WebsiteDownloader state of a run. -/
def exSt0 : WDState := { mapping := [], downloaded := [], disk := [] }

/-- The clean initial MusicianDownloader state of a run. -/
def exMus0 : MusState := { mapping := [], disk := [] }

/-! ### Claim-side definitions for the srcset refinement (C2) -/

/-- One semantic srcset entry (URL, size-or-density descriptor) rendered the
    way it appears inside the attribute: url, one space, descriptor. -/
def srcsetPiece (e : String × String) : List Char := e.1.data ++ ' ' :: e.2.data

/-- Modelled from the spec: a srcset attribute value carrying the given
    entries, comma-space separated. -/
def renderSrcset (entries : List (String × String)) : String :=
  String.mk (intercalateL [',', ' '] (entries.map srcsetPiece))

/-- Modelled from the spec: the entries the claim says survive the rewrite —
    each mapped URL replaced by its local path with the descriptor preserved,
    unmapped entries dropped. -/
def srcsetKept (m : Mapping) (entries : List (String × String)) : List (String × String) :=
  entries.filterMap (fun e => (mapLookup m e.1).map (fun p2 => (p2, e.2)))

/-- A well-formed srcset token: nonempty, no whitespace, no comma. -/
def tokOk (s : String) : Bool :=
  !s.data.isEmpty && s.data.all (fun c => !isWsChar c && !(c = ','))

/-! ### Run invariant for WebsiteDownloader path-uniqueness (C1) -/

/-- Invariant of a sequential WebsiteDownloader run over the raw URLs in
    urls: every mapped key was recorded as downloaded, keys are distinct,
    local paths are distinct, and every entry comes from some raw URL of the
    run, bound to its plain or its hash-fallback name. -/
def wdInv (urls : List String) (st : WDState) : Prop :=
  (∀ p ∈ st.mapping, p.1 ∈ st.downloaded) ∧
  (st.mapping.map (fun p => p.1)).Nodup ∧
  (st.mapping.map (fun p => p.2)).Nodup ∧
  (∀ p ∈ st.mapping, ∃ u0, u0 ∈ urls ∧ p.1 = wdNormUrl u0 ∧
    (some p.2 = wdPlainName u0 ∨ some p.2 = wdHashName u0))

/-! ### Generic lemmas about the mapping -/

theorem mapLookup_append_left {m m2 : Mapping} {k v : String}
    (h : mapLookup m k = some v) : mapLookup (m ++ m2) k = some v := by
  induction m with
  | nil => simp [mapLookup] at h
  | cons p rest ih =>
    simp only [mapLookup, List.cons_append] at h ⊢
    split at h
    · simp_all
    · simp only [*]
      exact ih h

theorem mapContains_eq_false_iff {m : Mapping} {k : String} :
    mapContains m k = false ↔ k ∉ m.map (fun p => p.1) := by
  induction m with
  | nil => simp [mapContains, mapLookup]
  | cons p rest ih =>
    simp only [mapContains, mapLookup] at ih ⊢
    constructor
    · intro h
      split at h
      · simp [Option.isSome] at h
      · intro hmem
        rcases List.mem_cons.mp hmem with h1 | h1
        · exact absurd h1.symm (by assumption)
        · exact (ih.mp h) h1
    · intro h
      have hk : p.1 ≠ k := fun hEq => h (List.mem_cons.mpr (Or.inl hEq.symm))
      simp only [hk, if_false]
      exact ih.mpr (fun hmem => h (List.mem_cons.mpr (Or.inr hmem)))

theorem mapLookup_mem {m : Mapping} {k v : String} (h : mapLookup m k = some v) :
    (k, v) ∈ m := by
  induction m with
  | nil => simp [mapLookup] at h
  | cons p rest ih =>
    simp only [mapLookup] at h
    split at h
    · obtain rfl := Option.some.inj h
      rename_i hk
      exact List.mem_cons.mpr (Or.inl (by rw [← hk]))
    · exact List.mem_cons.mpr (Or.inr (ih h))

theorem mapInsert_of_not_contains {m : Mapping} {k v : String}
    (h : mapContains m k = false) : mapInsert m k v = m ++ [(k, v)] := by
  simp [mapInsert, h]

theorem mapLookup_mapInsert_of_ne {m : Mapping} {k k1 v v1 : String}
    (hfresh : mapContains m k1 = false) (h : mapLookup m k = some v) :
    mapLookup (mapInsert m k1 v1) k = some v := by
  rw [mapInsert_of_not_contains hfresh]
  exact mapLookup_append_left h

/-- Sanity check of the executable MD5 against the reference digests of RFC
    1321 and of the URL used in the path-collision counterexample. -/
theorem md5_reference_vectors :
    md5hex "" = "d41d8cd98f00b204e9800998ecf8427e" ∧
    md5hex "abc" = "900150983cd24fb0d6963f7d28e17f72" ∧
    md5hex "The quick brown fox jumps over the lazy dog" =
      "9e107d9d372bb6826bd81d3542a419d6" ∧
    md5hex8 "http://c.com/a.jpg" = "4bf95c9d" := by
  refine ⟨by decide, by decide, by decide, by decide⟩

/-! ### C5: retry ceiling (code bug: a persistent non-200, non-404 status,
    such as HTTP 500, is re-requested forever because retries is only
    decremented in the except branch) -/

/-- C5: the claim says every fetch task terminates after at most 3 request
    attempts for every outcome sequence including persistent HTTP 500. The
    code violates this: with every request answering 500, the while loop of
    MusicianDownloader.download_single_resource never decrements retries and
    never returns, so no amount of fuel completes the run. -/
theorem C5_retry_ceiling_code_bug :
    ∀ fuel attempt,
      musDownloadSingle "out" ProbeResult.exc "https://e.com/x.png"
          (fun _ => FetchOutcome.resp 500 []) fuel 3 attempt exMus0 = none := by
  intro fuel
  induction fuel with
  | zero => intro attempt; rfl
  | succ n ih =>
    intro attempt
    show musDownloadSingle _ _ _ _ (n + 1) (2 + 1) attempt exMus0 = none
    rw [musDownloadSingle]
    have hguard :
        (startsWithS "https://e.com/x.png" "data:" ||
          mapContains exMus0.mapping "https://e.com/x.png") = false := by decide
    rw [hguard]
    simp [ih]


/-! ### C4: 404 handling -/

/-- C4 counterexample: the claim says a 404 resource costs exactly one
    request attempt in both downloaders. WebsiteDownloader.download_resource
    issues three: a non-200 response neither breaks nor raises, so the for
    loop runs all its attempts. The URL stays unmapped. -/
theorem C4_counterexample :
    (wdDownloadResource exCfg exSt0 "https://e.com/x.png"
        (fun _ => FetchOutcome.resp 404 [])).2.2 = 3 ∧
    (wdDownloadResource exCfg exSt0 "https://e.com/x.png"
        (fun _ => FetchOutcome.resp 404 [])).1 = exSt0 := by
  constructor
  · decide
  · decide

/-- C4 amended: MusicianDownloader.download_single_resource answers a 404
    with exactly one request and no mapping change; WebsiteDownloader's retry
    loop answers persistent 404s with three requests (its full attempt
    budget) and also leaves the state unchanged. -/
theorem C4_amended :
    (∀ od probe url outcomes fuel st b,
        startsWithS url "data:" = false →
        mapContains st.mapping url = false →
        outcomes 0 = FetchOutcome.resp 404 b →
        musDownloadSingle od probe url outcomes (fuel + 1) 3 0 st = some (st, 1)) ∧
    (∀ st url lp fp outcomes b0 b1 b2,
        outcomes 0 = FetchOutcome.resp 404 b0 →
        outcomes 1 = FetchOutcome.resp 404 b1 →
        outcomes 2 = FetchOutcome.resp 404 b2 →
        wdDownloadLoop st url lp fp outcomes 0 3 = (st, lp, 3)) := by
  constructor
  · intro od probe url outcomes fuel st b hdata hmap hout
    show musDownloadSingle od probe url outcomes (fuel + 1) (2 + 1) 0 st = some (st, 1)
    rw [musDownloadSingle, hdata, hmap, hout]
    simp
  · intro st url lp fp outcomes b0 b1 b2 h0 h1 h2
    rw [wdDownloadLoop, h0]
    rw [wdDownloadLoop, h1]
    rw [wdDownloadLoop, h2]
    rfl

/-- C4 witness: the amended theorem applied to a concrete 404 run of each
    downloader. -/
theorem C4_witness :
    musDownloadSingle "out" ProbeResult.exc "https://e.com/x.png"
        (fun _ => FetchOutcome.resp 404 []) 10 3 0 exMus0 = some (exMus0, 1) ∧
    wdDownloadLoop exSt0 "https://e.com/x.png" "images/x.png" "out/images/x.png"
        (fun _ => FetchOutcome.resp 404 []) 0 3 = (exSt0, "images/x.png", 3) := by
  constructor
  · exact C4_amended.1 "out" ProbeResult.exc "https://e.com/x.png" _ 9 exMus0 []
      (by decide) (by decide) rfl
  · exact C4_amended.2 exSt0 "https://e.com/x.png" "images/x.png" "out/images/x.png" _
      [] [] [] rfl rfl rfl

/-! ### C3: zero-byte 200 responses -/

/-- C3 counterexample: the claim says a 200 response with empty body creates
    no mapping entry and no zero-byte file in either downloader.
    WebsiteDownloader.download_resource has no body-length check: it maps the
    URL and writes the empty file. -/
theorem C3_counterexample :
    (wdDownloadResource exCfg exSt0 "https://e.com/x.png"
        (fun _ => FetchOutcome.resp 200 [])).1 =
      { mapping := [("https://e.com/x.png", "images/x.png")],
        downloaded := ["https://e.com/x.png"],
        disk := [("out/images/x.png", [])] } := by
  decide

/-- C3 amended: MusicianDownloader.download_single_resource treats a 200
    response with empty body as terminal without mapping or writing anything;
    WebsiteDownloader.download_resource maps the URL and writes the empty
    file. -/
theorem C3_amended :
    (∀ od probe url outcomes fuel st,
        startsWithS url "data:" = false →
        mapContains st.mapping url = false →
        outcomes 0 = FetchOutcome.resp 200 [] →
        musDownloadSingle od probe url outcomes (fuel + 1) 3 0 st = some (st, 1)) ∧
    (∀ st url lp fp outcomes,
        outcomes 0 = FetchOutcome.resp 200 [] →
        wdDownloadLoop st url lp fp outcomes 0 3 =
          ({ mapping := mapInsert st.mapping url lp,
             downloaded := st.downloaded ++ [url],
             disk := st.disk ++ [(fp, [])] }, lp, 1)) := by
  constructor
  · intro od probe url outcomes fuel st hdata hmap hout
    show musDownloadSingle od probe url outcomes (fuel + 1) (2 + 1) 0 st = some (st, 1)
    rw [musDownloadSingle, hdata, hmap, hout]
    simp
  · intro st url lp fp outcomes hout
    rw [wdDownloadLoop, hout]

/-- C3 witness: the amended theorem applied to a concrete empty-body 200 run
    of each downloader. -/
theorem C3_witness :
    musDownloadSingle "out" ProbeResult.exc "https://e.com/x.png"
        (fun _ => FetchOutcome.resp 200 []) 10 3 0 exMus0 = some (exMus0, 1) ∧
    wdDownloadLoop exSt0 "https://e.com/x.png" "images/x.png" "out/images/x.png"
        (fun _ => FetchOutcome.resp 200 []) 0 3 =
      ({ mapping := [("https://e.com/x.png", "images/x.png")],
         downloaded := ["https://e.com/x.png"],
         disk := [("out/images/x.png", [])] }, "images/x.png", 1) := by
  constructor
  · exact C3_amended.1 "out" ProbeResult.exc "https://e.com/x.png" _ 9 exMus0
      (by decide) (by decide) rfl
  · have h := C3_amended.2 exSt0 "https://e.com/x.png" "images/x.png" "out/images/x.png"
      (fun _ => FetchOutcome.resp 200 []) rfl
    rw [h]
    decide

/-! ### C7: classification of unknown types and data: URLs -/

/-- C7 counterexample: the claim says a URL with no determinable content type
    and no recognizable extension (scheme not data:) is categorised other and
    still fetched. WebsiteDownloader.download_resource classifies
    https://e.com/file.foo to nothing (mimetypes knows no .foo, the extension
    fallback recognises nothing) and returns the URL with zero request
    attempts and no state change: skipped, not fetched. -/
theorem C7_counterexample :
    wdSubdirExt "https://e.com/file.foo" = none ∧
    wdDownloadResource exCfg exSt0 "https://e.com/file.foo"
        (fun _ => FetchOutcome.resp 200 [55]) = (exSt0, "https://e.com/file.foo", 0) := by
  constructor
  · decide
  · decide

/-- C7 amended: the other-and-still-fetched behaviour belongs to
    MusicianDownloader (get_local_path falls through to subdirectory other,
    and download_resources queues every non-data: URL), and data: URLs are
    skipped by both downloaders; WebsiteDownloader instead skips a URL with
    no determinable content type and no recognised extension entirely (see
    the counterexample). -/
theorem C7_amended :
    (∀ od probe url,
        startsWithS url "data:" = false → url ≠ "" →
        musExtLow url ∉ [".css", ".scss"] →
        musExtLow url ∉ [".js", ".jsx", ".ts"] →
        musExtLow url ∉ [".jpg", ".jpeg", ".png", ".gif", ".webp", ".svg"] →
        musExtLow url ∉ [".woff", ".woff2", ".ttf", ".eot"] →
        musGetLocalPath od probe url =
          some (od ++ "/" ++ "other" ++ "/" ++ musUniqueName url) ∧
        musicianQueued url = true) ∧
    (∀ url, startsWithS url "data:" = true →
        musicianQueued url = false ∧
        (∀ od probe, musGetLocalPath od probe url = none) ∧
        (∀ cfg st outcomes, containsSub url "t=" = false → startsWithS url "/" = false →
            wdDownloadResource cfg st url outcomes = (st, url, 0))) := by
  constructor
  · intro od probe url hdata hempty hc hj hi hf
    constructor
    · rw [musGetLocalPath]
      simp only [hdata, hempty, if_false, Bool.or_false, ite_false]
      rw [musSubdir]
      simp [hc, hj, hi, hf]
    · simp [musicianQueued, hdata]
  · intro url hdata
    refine ⟨by simp [musicianQueued, hdata], fun od probe => by simp [musGetLocalPath, hdata],
      fun cfg st outcomes ht hslash => ?_⟩
    have hnorm : wdNormUrl url = url := by
      rw [wdNormUrl]
      simp only [hslash, if_false, ite_false]
      simp [ht]
    rw [wdDownloadResource, hnorm]
    simp [hdata]

/-- C7 witness: the amended theorem applied to an unknown-extension URL and a
    data: URI. -/
theorem C7_witness :
    (musGetLocalPath "out" ProbeResult.exc "https://e.com/file.bin" =
        some ("out" ++ "/" ++ "other" ++ "/" ++ musUniqueName "https://e.com/file.bin") ∧
      musicianQueued "https://e.com/file.bin" = true) ∧
    (musicianQueued "data:image/png;base64,AA" = false ∧
      musGetLocalPath "out" ProbeResult.exc "data:image/png;base64,AA" = none ∧
      wdDownloadResource exCfg exSt0 "data:image/png;base64,AA"
          (fun _ => FetchOutcome.resp 200 [55]) = (exSt0, "data:image/png;base64,AA", 0)) := by
  constructor
  · exact C7_amended.1 "out" ProbeResult.exc "https://e.com/file.bin"
      (by decide) (by decide) (by decide) (by decide) (by decide) (by decide)
  · have h := C7_amended.2 "data:image/png;base64,AA" (by decide)
    exact ⟨h.1, h.2.1 "out" ProbeResult.exc,
      h.2.2 exCfg exSt0 (fun _ => FetchOutcome.resp 200 [55]) (by decide) (by decide)⟩

/-! ### C9: thumbnail classification -/

/-- C9 counterexample: the claim says an image is a thumbnail if and only if
    its URL matches a resize convention or the probe reports under 5 KiB.
    MusicianDownloader.is_thumbnail consults only the probe: for a URL
    matching the resize convention whose probe reports 50 KiB it answers
    False and get_local_path routes the image to images, not
    images/thumbnails. -/
theorem C9_counterexample :
    isThumbnail (ProbeResult.resp (some "51200")) = false ∧
    wdIsThumbnailUrl "https://e.com/-/resize/pic.jpg" = true ∧
    musGetLocalPath "out" (ProbeResult.resp (some "51200")) "https://e.com/-/resize/pic.jpg" =
      some ("out" ++ "/" ++ "images" ++ "/" ++ musUniqueName "https://e.com/-/resize/pic.jpg") := by
  refine ⟨by decide, by decide, by decide⟩

/-- C9 amended: MusicianDownloader classifies thumbnails by the probed size
    alone — is_thumbnail compares the parsed content length against 5 * 1024
    and ignores the URL (the resize-convention check exists only in
    WebsiteDownloader) — and get_local_path routes a .jpg below the threshold
    to images/thumbnails and at or above it to images. -/
theorem C9_amended :
    (∀ s n, pyIntParse s = some n →
        isThumbnail (ProbeResult.resp (some s)) = decide (n < 5 * 1024)) ∧
    (∀ od url s n,
        musExtLow url = ".jpg" → startsWithS url "data:" = false → url ≠ "" →
        pyIntParse s = some n →
        musGetLocalPath od (ProbeResult.resp (some s)) url =
          some (od ++ "/" ++ (if n < 5 * 1024 then "images/thumbnails" else "images") ++ "/" ++
            musUniqueName url)) := by
  have part1 : ∀ s n, pyIntParse s = some n →
      isThumbnail (ProbeResult.resp (some s)) = decide (n < 5 * 1024) := by
    intro s n hparse
    simp [isThumbnail, hparse]
  refine ⟨part1, ?_⟩
  intro od url s n hext hdata hempty hparse
  rw [musGetLocalPath]
  simp only [hdata, hempty, if_false, Bool.or_false, ite_false]
  rw [musSubdir, hext, part1 s n hparse]
  by_cases hn : n < 5 * 1024 <;> simp [hn]

/-- C9 witness: the amended theorem applied with a 3 KiB probe and a 50 KiB
    probe on the same .jpg URL (the spec's own numbers). -/
theorem C9_witness :
    musGetLocalPath "out" (ProbeResult.resp (some "3072")) "https://e.com/img/pic.jpg" =
      some "out/images/thumbnails/pic_6969c641.jpg" ∧
    musGetLocalPath "out" (ProbeResult.resp (some "51200")) "https://e.com/img/pic.jpg" =
      some "out/images/pic_6969c641.jpg" := by
  constructor
  · have h := C9_amended.2 "out" "https://e.com/img/pic.jpg" "3072" 3072
      (by decide) (by decide) (by decide) (by decide)
    rw [h]
    decide
  · have h := C9_amended.2 "out" "https://e.com/img/pic.jpg" "51200" 51200
      (by decide) (by decide) (by decide) (by decide)
    rw [h]
    decide

/-! ### C10: probe failure and missing content-length -/

/-- C10: if the HEAD probe raises, is_thumbnail answers False and the .jpg is
    routed to images; if it answers without a content-length header, the size
    defaults to 0, under the 5 KiB threshold, so is_thumbnail answers True
    and the .jpg is routed to images/thumbnails. -/
theorem C10_probe_fallbacks :
    ∀ od url,
      musExtLow url = ".jpg" → startsWithS url "data:" = false → url ≠ "" →
      isThumbnail ProbeResult.exc = false ∧
      musGetLocalPath od ProbeResult.exc url =
        some (od ++ "/" ++ "images" ++ "/" ++ musUniqueName url) ∧
      isThumbnail (ProbeResult.resp none) = true ∧
      musGetLocalPath od (ProbeResult.resp none) url =
        some (od ++ "/" ++ "images/thumbnails" ++ "/" ++ musUniqueName url) := by
  intro od url hext hdata hempty
  refine ⟨rfl, ?_, rfl, ?_⟩
  · rw [musGetLocalPath]
    simp only [hdata, hempty, if_false, Bool.or_false, ite_false]
    rw [musSubdir, hext]
    simp [isThumbnail]
  · rw [musGetLocalPath]
    simp only [hdata, hempty, if_false, Bool.or_false, ite_false]
    rw [musSubdir, hext]
    simp [isThumbnail]

/-- C10 witness: the theorem applied to a concrete .jpg URL, with both probe
    outcomes evaluated. -/
theorem C10_witness :
    musGetLocalPath "out" ProbeResult.exc "https://e.com/img/pic.jpg" =
      some "out/images/pic_6969c641.jpg" ∧
    musGetLocalPath "out" (ProbeResult.resp none) "https://e.com/img/pic.jpg" =
      some "out/images/thumbnails/pic_6969c641.jpg" := by
  have h := C10_probe_fallbacks "out" "https://e.com/img/pic.jpg"
    (by decide) (by decide) (by decide)
  constructor
  · rw [h.2.1]
    decide
  · rw [h.2.2.2]
    decide

/-! ### C6: the rewrite pass and the mapping -/

/-- C6 counterexample: the claim says process_html never inserts into the
    resource mapping in either downloader. WebsiteDownloader.process_html
    does: a script tag whose src mentions tilda gets mapped to js/basename
    during the rewrite pass, so the mapping after the pass differs from the
    (empty) mapping before it. -/
theorem C6_counterexample :
    (wdProcessHtml [] [] [{ tag := "script", attrs := [("src", "https://x.com/tilda-zoom.js")] }]).map
        (fun r => r.2.1) = some [("https://x.com/tilda-zoom.js", "js/tilda-zoom.js")] ∧
    (wdProcessHtml [] [] [{ tag := "script", attrs := [("src", "https://x.com/tilda-zoom.js")] }]).map
        (fun r => r.2.1) ≠ some ([] : Mapping) := by
  refine ⟨by decide, by decide⟩

theorem wdTildaScriptFold_preserves {k v : String} (acc : Doc × Mapping × List String) (e : Elem)
    (h : mapLookup acc.2.1 k = some v) :
    mapLookup (wdTildaScriptFold acc e).2.1 k = some v := by
  rw [wdTildaScriptFold]
  split
  · cases hsrc : Elem.getTruthy e "src" with
    | none => simpa [hsrc] using h
    | some src =>
      simp only [hsrc]
      split
      · split <;> split
        · simpa using h
        · next hfresh => exact mapLookup_mapInsert_of_ne (by simpa using hfresh) h
        · simpa using h
        · next hfresh => exact mapLookup_mapInsert_of_ne (by simpa using hfresh) h
      · simpa using h
  · simpa using h

theorem wdTildaScriptFoldl_preserves {k v : String} (d : Doc)
    (acc : Doc × Mapping × List String) (h : mapLookup acc.2.1 k = some v) :
    mapLookup (d.foldl wdTildaScriptFold acc).2.1 k = some v := by
  induction d generalizing acc with
  | nil => exact h
  | cons e rest ih => exact ih _ (wdTildaScriptFold_preserves acc e h)

/-- C6 amended: MusicianDownloader.process_html leaves the resource mapping
    exactly as it was; WebsiteDownloader.process_html never updates or
    deletes an existing entry (every mapping it holds before the pass is
    still there, bound to the same path, after it), but it may insert fresh
    entries for Tilda script URLs. -/
theorem C6_amended :
    (∀ m d r, musProcessHtml m d = some r → r.2 = m) ∧
    (∀ m res d r k v, wdProcessHtml m res d = some r → mapLookup m k = some v →
        mapLookup r.2.1 k = some v) := by
  constructor
  · intro m d r h
    rw [musProcessHtml] at h
    split at h
    · exact Option.noConfusion h
    · rw [← Option.some.inj h]
  · intro m res d r k v h hk
    rw [wdProcessHtml] at h
    split at h
    · exact Option.noConfusion h
    · rw [← Option.some.inj h]
      exact wdTildaScriptFoldl_preserves d ([], m, res) hk

/-- C6 witness: the amended theorem applied to a concrete document for each
    downloader: the musician pass returns its mapping unchanged, and the
    WebsiteDownloader pass keeps a pre-existing entry intact while adding a
    Tilda script entry. -/
theorem C6_witness :
    (∀ r, musProcessHtml [("https://e.com/a.jpg", "images/a.jpg")]
        [{ tag := "img", attrs := [("src", "https://e.com/a.jpg")] }] = some r →
      r.2 = [("https://e.com/a.jpg", "images/a.jpg")]) ∧
    (∀ r, wdProcessHtml [("https://e.com/a.jpg", "images/a.jpg")] []
        [{ tag := "script", attrs := [("src", "https://x.com/tilda-zoom.js")] }] = some r →
      mapLookup r.2.1 "https://e.com/a.jpg" = some "images/a.jpg") := by
  constructor
  · intro r h
    exact C6_amended.1 _ _ r h
  · intro r h
    exact C6_amended.2 _ _ _ r _ _ h (by decide)

/-! ### C8: locality of the style background-image substitution -/

theorem isPrefixL_append_self (x y : List Char) : isPrefixL x (x ++ y) = true := by
  induction x with
  | nil => rfl
  | cons c rest ih => simp [isPrefixL, ih]

theorem replaceNeAux_no_occur (p : Char) (ps rep : List Char) :
    ∀ (l : List Char) (fuel : Nat), l.length ≤ fuel →
      (∀ i, isPrefixL (p :: ps) (l.drop i) = false) →
      replaceNeAux p ps rep fuel l = l := by
  intro l
  induction l with
  | nil => intro fuel _ _; cases fuel <;> rfl
  | cons c rest ih =>
    intro fuel hfuel hno
    cases fuel with
    | zero => simp at hfuel
    | succ f =>
      rw [replaceNeAux]
      have h0 := hno 0
      simp only [List.drop_zero] at h0
      rw [if_neg (by simp [h0])]
      exact congrArg (List.cons c)
        (ih f (by simpa using hfuel) (fun i => by simpa using hno (i + 1)))

theorem replaceNeAux_single (p : Char) (ps rep : List Char) :
    ∀ (pre post : List Char) (fuel : Nat),
      (pre ++ ((p :: ps) ++ post)).length ≤ fuel →
      (∀ i, i < pre.length → isPrefixL (p :: ps) ((pre ++ ((p :: ps) ++ post)).drop i) = false) →
      (∀ i, isPrefixL (p :: ps) (post.drop i) = false) →
      replaceNeAux p ps rep fuel (pre ++ ((p :: ps) ++ post)) = pre ++ (rep ++ post) := by
  intro pre
  induction pre with
  | nil =>
    intro post fuel hfuel _ hpost
    cases fuel with
    | zero => simp at hfuel
    | succ f =>
      show replaceNeAux p ps rep (f + 1) (p :: (ps ++ post)) = rep ++ post
      rw [replaceNeAux]
      have hpref : isPrefixL (p :: ps) (p :: (ps ++ post)) = true := by
        have := isPrefixL_append_self (p :: ps) post
        simpa using this
      rw [hpref]
      simp only [if_true]
      have hdrop : (p :: (ps ++ post)).drop (ps.length + 1) = post := by
        simp [List.drop_left]
      rw [hdrop]
      have hlen : post.length ≤ f := by
        simp only [List.nil_append, List.length_cons, List.length_append] at hfuel
        omega
      rw [replaceNeAux_no_occur p ps rep post f hlen hpost]
  | cons c pre2 ih =>
    intro post fuel hfuel hpre hpost
    cases fuel with
    | zero => simp at hfuel
    | succ f =>
      show replaceNeAux p ps rep (f + 1) (c :: (pre2 ++ ((p :: ps) ++ post))) =
        c :: (pre2 ++ (rep ++ post))
      rw [replaceNeAux]
      have h0 := hpre 0 (by simp)
      simp only [List.drop_zero] at h0
      simp only [List.cons_append] at h0
      rw [if_neg (by simp [h0])]
      exact congrArg (List.cons c)
        (ih post f (by simpa using hfuel)
          (fun i hi => by
            have h2 := hpre (i + 1) (by simpa using Nat.succ_lt_succ hi)
            simpa using h2)
          hpost)

/-- C8 counterexample: the claim says the rewrite replaces only the matched
    URL substring, preserving every other character verbatim. The code runs
    style.replace, which substitutes every occurrence: when the matched URL
    appears twice, the second (unmatched) occurrence is rewritten too. -/
theorem C8_counterexample :
    rewriteStyleAttr [("x.png", "images/x.png")]
        "background-image:url(x.png);background-image:url(x.png)" =
      "background-image:url(images/x.png);background-image:url(images/x.png)" ∧
    rewriteStyleAttr [("x.png", "images/x.png")]
        "background-image:url(x.png);background-image:url(x.png)" ≠
      "background-image:url(images/x.png);background-image:url(x.png)" := by
  refine ⟨by decide, by decide⟩

/-- C8 amended: the rewrite substitutes the mapped URL with str.replace,
    which replaces every occurrence of the matched substring; when the
    matched URL occurs exactly once in the style string (no occurrence starts
    before the matched one and none occurs after it), only that substring is
    replaced and every other character is preserved verbatim, as in the
    claim's color:red example. -/
theorem C8_amended :
    ∀ (m : Mapping) (style x L : String) (pre post : List Char),
      searchBgUrl style.data = some x.data →
      mapLookup m x = some L →
      x.data ≠ [] →
      style.data = pre ++ (x.data ++ post) →
      (∀ i, i < pre.length → isPrefixL x.data (style.data.drop i) = false) →
      (∀ i, i ≤ post.length → isPrefixL x.data (post.drop i) = false) →
      rewriteStyleAttr m style = String.mk (pre ++ (L.data ++ post)) := by
  intro m style x L pre post hsearch hlookup hx hdecomp hpre hpost
  have hmkx : String.mk x.data = x := rfl
  rw [rewriteStyleAttr, hsearch]
  simp only [hmkx, hlookup]
  cases hxd : x.data with
  | nil => exact absurd hxd hx
  | cons p ps =>
    have hpost2 : ∀ i, isPrefixL (p :: ps) (post.drop i) = false := by
      intro i
      by_cases hi : i ≤ post.length
      · rw [← hxd]; exact hpost i hi
      · rw [List.drop_eq_nil_of_le (by omega)]
        rfl
    have hstyle : style.data = pre ++ ((p :: ps) ++ post) := by rw [hdecomp, hxd]
    rw [hstyle]
    show String.mk
        (replaceNeAux p ps L.data (pre ++ ((p :: ps) ++ post)).length
          (pre ++ ((p :: ps) ++ post))) =
      String.mk (pre ++ (L.data ++ post))
    rw [replaceNeAux_single p ps L.data pre post _ (le_refl _)
      (fun i hi => by
        have h2 := hpre i hi
        rw [hstyle] at h2
        rw [hxd] at h2
        exact h2)
      hpost2]

/-- C8 witness: the amended theorem applied to the spec's example, the style
    string color:red;background-image:url(x.png) with x.png mapped to
    images/x.png. -/
theorem C8_witness :
    rewriteStyleAttr [("x.png", "images/x.png")] "color:red;background-image:url(x.png)" =
      "color:red;background-image:url(images/x.png)" := by
  have h := C8_amended [("x.png", "images/x.png")] "color:red;background-image:url(x.png)"
    "x.png" "images/x.png" ("color:red;background-image:url(".data) (")".data)
    (by decide) (by decide) (by decide) (by decide)
    (by decide) (by decide)
  rw [h]
  decide

/-! ### C2: srcset rewriting -/

/-- C2 counterexample: the claim says every unmapped entry is dropped from
    the regenerated srcset. When no entry at all is mapped, new_srcset stays
    empty and the attribute is left untouched, so the unmapped entry
    b.jpg 2x is not dropped: it keeps pointing at its remote URL. -/
theorem C2_counterexample :
    rewriteSrcset [] "b.jpg 2x" = some "b.jpg 2x" ∧
    rewriteSrcset [] "b.jpg 2x" ≠ some "" := by
  refine ⟨by decide, by decide⟩

theorem splitCharL_ne_nil (sep : Char) (l : List Char) : splitCharL sep l ≠ [] := by
  cases l with
  | nil => simp [splitCharL]
  | cons c rest =>
    rw [splitCharL]
    cases splitCharL sep rest with
    | nil => simp
    | cons h t =>
      by_cases hc : c = sep <;> simp [hc]

theorem splitCharL_no_sep (sep : Char) (x : List Char) (h : ∀ c ∈ x, c ≠ sep) :
    splitCharL sep x = [x] := by
  induction x with
  | nil => rfl
  | cons c rest ih =>
    rw [splitCharL, ih (fun d hd => h d (List.mem_cons_of_mem c hd))]
    simp [h c (List.mem_cons_self c rest)]

theorem splitCharL_append_sep (sep : Char) (x rest : List Char) (h : ∀ c ∈ x, c ≠ sep) :
    splitCharL sep (x ++ sep :: rest) = x :: splitCharL sep rest := by
  induction x with
  | nil =>
    rw [List.nil_append, splitCharL]
    cases hs : splitCharL sep rest with
    | nil => exact absurd hs (splitCharL_ne_nil sep rest)
    | cons h1 t1 => simp [← hs]
  | cons c x2 ih =>
    rw [List.cons_append, splitCharL, ih (fun d hd => h d (List.mem_cons_of_mem c hd))]
    simp [h c (List.mem_cons_self c x2)]

theorem intercalateL_cons_space (sep : List Char) (q : List Char)
    (rest : List (List Char)) :
    intercalateL sep ((' ' :: q) :: rest) = ' ' :: intercalateL sep (q :: rest) := by
  cases rest with
  | nil => rfl
  | cons r rest2 => rfl

theorem splitCharL_intercalate (ps : List (List Char)) :
    ∀ p, (∀ x ∈ p :: ps, ∀ c ∈ x, c ≠ ',') →
      splitCharL ',' (intercalateL [',', ' '] (p :: ps)) =
        p :: ps.map (fun q => ' ' :: q) := by
  induction ps with
  | nil =>
    intro p h
    show splitCharL ',' p = [p]
    exact splitCharL_no_sep ',' p (h p (List.mem_cons_self p []))
  | cons q rest ih =>
    intro p h
    show splitCharL ',' (p ++ [',', ' '] ++ intercalateL [',', ' '] (q :: rest)) = _
    rw [List.append_assoc]
    rw [show ([',', ' '] ++ intercalateL [',', ' '] (q :: rest) : List Char) =
      ',' :: (' ' :: intercalateL [',', ' '] (q :: rest)) from rfl]
    rw [splitCharL_append_sep ',' p _ (h p (List.mem_cons_self p _))]
    rw [← intercalateL_cons_space]
    rw [ih (' ' :: q) ?hq]
    · simp
    case hq =>
      intro x hx c hc
      rcases List.mem_cons.mp hx with rfl | hx2
      · rcases List.mem_cons.mp hc with rfl | hc2
        · decide
        · exact h q (List.mem_cons_of_mem p (List.mem_cons_self q rest)) c hc2
      · exact h x (List.mem_cons_of_mem p (List.mem_cons_of_mem q hx2)) c hc

theorem dropWhile_ws_cons_of_neg (c : Char) (l : List Char) (hc : isWsChar c = false) :
    (c :: l).dropWhile isWsChar = c :: l := by
  simp [List.dropWhile_cons, hc]

theorem splitWsAux_token (u : List Char) (hu : ∀ c ∈ u, isWsChar c = false) :
    ∀ l acc, splitWsAux (u ++ l) acc = splitWsAux l (u.reverse ++ acc) := by
  induction u with
  | nil => intro l acc; simp
  | cons c u2 ih =>
    intro l acc
    rw [List.cons_append, splitWsAux]
    rw [hu c (List.mem_cons_self c u2)]
    simp only [if_false, Bool.false_eq_true]
    rw [ih (fun d hd => hu d (List.mem_cons_of_mem c hd)) l (c :: acc)]
    simp

theorem stripWsL_cons_space (l : List Char) : stripWsL (' ' :: l) = stripWsL l := by
  rw [stripWsL, stripWsL]
  rw [show (' ' :: l).dropWhile isWsChar = l.dropWhile isWsChar by
    simp [List.dropWhile_cons, show isWsChar ' ' = true from rfl]]

theorem stripWsL_token_pair (u d : List Char)
    (hu : ∀ c ∈ u, isWsChar c = false) (hune : u ≠ [])
    (hd : ∀ c ∈ d, isWsChar c = false) (hdne : d ≠ []) :
    stripWsL (u ++ ' ' :: d) = u ++ ' ' :: d := by
  rw [stripWsL]
  have h1 : (u ++ ' ' :: d).dropWhile isWsChar = u ++ ' ' :: d := by
    cases u with
    | nil => exact absurd rfl hune
    | cons c u2 =>
      rw [List.cons_append]
      exact dropWhile_ws_cons_of_neg c _ (hu c (List.mem_cons_self c u2))
  rw [h1]
  have h2 : (u ++ ' ' :: d).reverse.dropWhile isWsChar = (u ++ ' ' :: d).reverse := by
    cases hrev : d.reverse with
    | nil => exact absurd (by simpa using congrArg List.reverse hrev) hdne
    | cons c0 dr =>
      have hc0 : isWsChar c0 = false := by
        apply hd
        have : c0 ∈ d.reverse := by rw [hrev]; exact List.mem_cons_self c0 dr
        exact List.mem_reverse.mp this
      rw [List.reverse_append]
      rw [show (' ' :: d).reverse = d.reverse ++ [' '] from by simp]
      rw [hrev]
      rw [List.cons_append, List.cons_append]
      exact dropWhile_ws_cons_of_neg c0 _ hc0
  rw [h2, List.reverse_reverse]

theorem splitWsL_token_pair (u d : List Char)
    (hu : ∀ c ∈ u, isWsChar c = false) (hune : u ≠ [])
    (hd : ∀ c ∈ d, isWsChar c = false) (hdne : d ≠ []) :
    splitWsL (u ++ ' ' :: d) = [u, d] := by
  rw [splitWsL, splitWsAux_token u hu]
  rw [splitWsAux]
  rw [show isWsChar ' ' = true from rfl]
  have hkv : (u.reverse ++ []).isEmpty = false := by
    simp [List.isEmpty_iff, hune]
  simp only [if_true, hkv, Bool.false_eq_true, if_false]
  rw [show splitWsAux d [] = splitWsAux (d ++ []) [] by rw [List.append_nil]]
  rw [splitWsAux_token d hd]
  rw [splitWsAux]
  have hkv2 : (d.reverse ++ []).isEmpty = false := by
    simp [List.isEmpty_iff, hdne]
  simp [hkv2, hdne]

theorem tokOk_spec {s : String} (h : tokOk s = true) :
    s.data ≠ [] ∧ ∀ c ∈ s.data, isWsChar c = false ∧ c ≠ ',' := by
  rw [tokOk, Bool.and_eq_true] at h
  constructor
  · intro hnil
    rw [hnil] at h
    simp at h
  · intro c hc
    have h2 := h.2
    rw [List.all_eq_true] at h2
    have := h2 c hc
    simp only [Bool.and_eq_true, Bool.not_eq_true'] at this
    refine ⟨this.1, ?_⟩
    intro hEq
    have := this.2
    simp [hEq] at this

theorem srcsetEntryLoop_cons_eval (m : Mapping) (x : List Char) (rest : List (List Char))
    (u d : String) (hx : splitWsL (stripWsL x) = [u.data, d.data]) :
    srcsetEntryLoop m (x :: rest) =
      match mapLookup m u with
      | some p2 => (srcsetEntryLoop m rest).map (fun r => srcsetPiece (p2, d) :: r)
      | none => srcsetEntryLoop m rest := by
  rw [srcsetEntryLoop, hx]
  show (match mapLookup m (String.mk u.data) with
        | some p =>
          Option.map (fun r => (p.data ++ ' ' :: intercalateL [' '] [d.data]) :: r)
            (srcsetEntryLoop m rest)
        | none => srcsetEntryLoop m rest) =
      match mapLookup m u with
      | some p2 => Option.map (fun r => srcsetPiece (p2, d) :: r) (srcsetEntryLoop m rest)
      | none => srcsetEntryLoop m rest
  rw [show String.mk u.data = u from rfl]
  cases mapLookup m u with
  | none => rfl
  | some p2 => rfl

theorem srcsetPiece_splits (e : String × String)
    (he1 : tokOk e.1 = true) (he2 : tokOk e.2 = true) :
    splitWsL (stripWsL (srcsetPiece e)) = [e.1.data, e.2.data] := by
  obtain ⟨hne1, hall1⟩ := tokOk_spec he1
  obtain ⟨hne2, hall2⟩ := tokOk_spec he2
  rw [show stripWsL (srcsetPiece e) = srcsetPiece e from
    stripWsL_token_pair e.1.data e.2.data (fun c hc => (hall1 c hc).1) hne1
      (fun c hc => (hall2 c hc).1) hne2]
  exact splitWsL_token_pair e.1.data e.2.data (fun c hc => (hall1 c hc).1) hne1
    (fun c hc => (hall2 c hc).1) hne2

theorem srcsetEntryLoop_spaced (m : Mapping) (entries : List (String × String))
    (h : ∀ e ∈ entries, tokOk e.1 = true ∧ tokOk e.2 = true) :
    srcsetEntryLoop m (entries.map (fun e => ' ' :: srcsetPiece e)) =
      some ((srcsetKept m entries).map srcsetPiece) := by
  induction entries with
  | nil => rfl
  | cons e rest ih =>
    rw [List.map_cons]
    have he := h e (List.mem_cons_self e rest)
    have hx : splitWsL (stripWsL (' ' :: srcsetPiece e)) = [e.1.data, e.2.data] := by
      rw [stripWsL_cons_space]
      exact srcsetPiece_splits e he.1 he.2
    rw [srcsetEntryLoop_cons_eval m _ _ e.1 e.2 hx]
    rw [ih (fun x hx2 => h x (List.mem_cons_of_mem e hx2))]
    cases hm : mapLookup m e.1 with
    | none => simp [srcsetKept, hm]
    | some p2 =>
      simp only [Option.map_some]
      rw [show srcsetKept m (e :: rest) = (p2, e.2) :: srcsetKept m rest from by
        simp [srcsetKept, hm]]
      rfl

theorem srcsetEntryLoop_entries (m : Mapping) (e0 : String × String)
    (rest : List (String × String))
    (h : ∀ e ∈ e0 :: rest, tokOk e.1 = true ∧ tokOk e.2 = true) :
    srcsetEntryLoop m (srcsetPiece e0 :: rest.map (fun e => ' ' :: srcsetPiece e)) =
      some ((srcsetKept m (e0 :: rest)).map srcsetPiece) := by
  have he0 := h e0 (List.mem_cons_self e0 rest)
  rw [srcsetEntryLoop_cons_eval m _ _ e0.1 e0.2 (srcsetPiece_splits e0 he0.1 he0.2)]
  rw [srcsetEntryLoop_spaced m rest (fun x hx => h x (List.mem_cons_of_mem e0 hx))]
  cases hm : mapLookup m e0.1 with
  | none => simp [srcsetKept, hm]
  | some p2 =>
    simp only [Option.map_some]
    rw [show srcsetKept m (e0 :: rest) = (p2, e0.2) :: srcsetKept m rest from by
      simp [srcsetKept, hm]]
    rfl

/-- C2 amended: on a well-formed srcset (nonempty, each entry one URL token
    and one descriptor token), the rewrite maps each entry whose URL is
    mapped to its local path with the descriptor preserved and drops every
    unmapped entry — provided at least one entry is mapped; when no entry is
    mapped the attribute is left unchanged rather than emptied. -/
theorem C2_amended (m : Mapping) (e0 : String × String) (rest : List (String × String))
    (h : ∀ e ∈ e0 :: rest, tokOk e.1 = true ∧ tokOk e.2 = true) :
    rewriteSrcset m (renderSrcset (e0 :: rest)) =
      some (if (srcsetKept m (e0 :: rest)).isEmpty then renderSrcset (e0 :: rest)
            else renderSrcset (srcsetKept m (e0 :: rest))) := by
  have hcommafree : ∀ x ∈ srcsetPiece e0 :: List.map srcsetPiece rest, ∀ c ∈ x, c ≠ ',' := by
    intro x hx c hc
    have hx2 : ∃ e ∈ e0 :: rest, srcsetPiece e = x := by
      rcases List.mem_cons.mp hx with rfl | hmem
      · exact ⟨e0, List.mem_cons_self e0 rest, rfl⟩
      · obtain ⟨e, he, rfl⟩ := List.mem_map.mp hmem
        exact ⟨e, List.mem_cons_of_mem e0 he, rfl⟩
    obtain ⟨e, he, rfl⟩ := hx2
    have htok := h e he
    obtain ⟨-, hall1⟩ := tokOk_spec htok.1
    obtain ⟨-, hall2⟩ := tokOk_spec htok.2
    rw [srcsetPiece] at hc
    rcases List.mem_append.mp hc with h1 | h1
    · exact (hall1 c h1).2
    · rcases List.mem_cons.mp h1 with rfl | h2
      · decide
      · exact (hall2 c h2).2
  rw [rewriteSrcset]
  rw [show (renderSrcset (e0 :: rest)).data =
    intercalateL [',', ' '] (srcsetPiece e0 :: rest.map srcsetPiece) from rfl]
  rw [splitCharL_intercalate (rest.map srcsetPiece) (srcsetPiece e0) hcommafree]
  rw [show (List.map srcsetPiece rest).map (fun q => ' ' :: q) =
    rest.map (fun e => ' ' :: srcsetPiece e) from by rw [List.map_map]; rfl]
  rw [srcsetEntryLoop_entries m e0 rest h]
  cases hk : srcsetKept m (e0 :: rest) with
  | nil => simp
  | cons k0 krest =>
    simp only [List.map_cons, List.isEmpty_cons]
    rfl

/-- C2 witness: the amended theorem applied to the spec's example, the
    srcset a.jpg 1x, b.jpg 2x with only a.jpg mapped: the result is the local
    path of a.jpg with its 1x descriptor, b dropped. -/
theorem C2_witness :
    rewriteSrcset [("a.jpg", "images/a.jpg")] "a.jpg 1x, b.jpg 2x" =
      some "images/a.jpg 1x" := by
  have h := C2_amended [("a.jpg", "images/a.jpg")] ("a.jpg", "1x") [("b.jpg", "2x")]
    (by decide)
  rw [show renderSrcset [("a.jpg", "1x"), ("b.jpg", "2x")] = "a.jpg 1x, b.jpg 2x" from by
    decide] at h
  rw [h]
  decide

/-! ### C1: local-path uniqueness -/

theorem toLower_ne_slash (c : Char) (h : c ≠ '/') : Char.toLower c ≠ '/' := by
  intro hEq
  rw [Char.toLower] at hEq
  split at hEq
  · next hc =>
    have hrange : 65 ≤ c.toNat ∧ c.toNat ≤ 90 := by
      simpa using hc
    have h47 : (Char.ofNat (c.toNat + 32)).toNat = c.toNat + 32 := by
      unfold Char.ofNat
      split
      · rfl
      · omega
    rw [hEq] at h47
    have hs : ('/').toNat = 47 := rfl
    omega
  · exact h hEq

theorem getD_preserve {P : Char → Prop} (L : List Char) (d : Char)
    (hL : ∀ x ∈ L, P x) (hd : P d) : ∀ n, P (L.getD n d) := by
  induction L generalizing d with
  | nil => intro n; simpa [List.getD] using hd
  | cons c rest ih =>
    intro n
    cases n with
    | zero => simpa [List.getD] using hL c (List.mem_cons_self c rest)
    | succ k =>
      have := ih d (fun x hx => hL x (List.mem_cons_of_mem c hx)) hd k
      simpa [List.getD] using this

theorem hexDigitChar_ne_slash (n : Nat) : hexDigitChar n ≠ '/' := by
  rw [hexDigitChar]
  exact @getD_preserve (fun x => x ≠ '/') _ '0' (by decide) (by decide) n

theorem byteHex_ne_slash (b : Nat) : ∀ c ∈ byteHex b, c ≠ '/' := by
  intro c hc
  rw [byteHex] at hc
  rcases List.mem_cons.mp hc with rfl | hc2
  · exact hexDigitChar_ne_slash _
  · rcases List.mem_cons.mp hc2 with rfl | hc3
    · exact hexDigitChar_ne_slash _
    · simp at hc3

theorem foldr_byteHex_mem {c : Char} :
    ∀ l : List Nat, c ∈ l.foldr (fun b acc => byteHex b ++ acc) [] → ∃ b, c ∈ byteHex b := by
  intro l
  induction l with
  | nil => intro h; simp at h
  | cons b rest ih =>
    intro h
    rcases List.mem_append.mp h with h1 | h1
    · exact ⟨b, h1⟩
    · exact ih h1

theorem md5hex_ne_slash (s : String) : ∀ c ∈ (md5hex s).data, c ≠ '/' := by
  intro c hc
  obtain ⟨b, hb⟩ := foldr_byteHex_mem _ hc
  exact byteHex_ne_slash b c hb

theorem md5hex8_ne_slash (s : String) : ∀ c ∈ (md5hex8 s).data, c ≠ '/' := by
  intro c hc
  have : c ∈ (md5hex s).data := List.mem_of_mem_take hc
  exact md5hex_ne_slash s c this

theorem leBytes_length (n k : Nat) : (leBytes n k).length = k := by
  induction k generalizing n with
  | zero => rfl
  | succ j ih => simp [leBytes, ih]

theorem foldr_byteHex_length :
    ∀ l : List Nat, (l.foldr (fun b acc => byteHex b ++ acc) []).length = 2 * l.length := by
  intro l
  induction l with
  | nil => rfl
  | cons b rest ih =>
    simp only [List.foldr_cons, List.length_append, ih, List.length_cons]
    rw [show (byteHex b).length = 2 from rfl]
    omega

theorem md5hex_data_length (s : String) : (md5hex s).data.length = 32 := by
  rw [md5hex]
  simp only []
  rw [foldr_byteHex_length]
  simp [leBytes_length]

theorem md5hex8_data_length (s : String) : (md5hex8 s).data.length = 8 := by
  rw [md5hex8]
  rw [show (String.mk ((md5hex s).data.take 8)).data = (md5hex s).data.take 8 from rfl]
  rw [List.length_take, md5hex_data_length]
  rfl

theorem basenameL_no_slash (l : List Char) : ∀ c ∈ basenameL l, c ≠ '/' := by
  intro c hc
  rw [basenameL] at hc
  have := List.mem_takeWhile_imp (List.mem_reverse.mp hc)
  simpa using this

theorem splitExtName_stem_mem {name : List Char} {c : Char}
    (hc : c ∈ (splitExtName name).1) : c ∈ name := by
  rw [splitExtName] at hc
  split at hc
  · exact hc
  · split at hc
    · exact (List.take_sublist _ _).mem hc
    · exact hc

theorem splitExtName_ext_mem {name : List Char} {c : Char}
    (hc : c ∈ (splitExtName name).2) : c ∈ name := by
  rw [splitExtName] at hc
  split at hc
  · simp at hc
  · split at hc
    · exact (List.drop_sublist _ _).mem hc
    · simp at hc

theorem musFilename_no_slash (url : String) : ∀ c ∈ musFilename url, c ≠ '/' := by
  intro c hc
  exact basenameL_no_slash _ c hc

theorem musExtLow_no_slash (url : String) : ∀ c ∈ (musExtLow url).data, c ≠ '/' := by
  intro c hc
  rw [musExtLow] at hc
  rw [show (String.mk ((splitExtName (musFilename url)).2.map Char.toLower)).data =
    (splitExtName (musFilename url)).2.map Char.toLower from rfl] at hc
  obtain ⟨x, hx, rfl⟩ := List.mem_map.mp hc
  exact toLower_ne_slash x (musFilename_no_slash url x (splitExtName_ext_mem hx))

theorem musUniqueName_data (url : String) :
    (musUniqueName url).data =
      stemOfName (musFilename url) ++ '_' :: ((md5hex8 url).data ++ (musExtLow url).data) := by
  rw [musUniqueName]
  rw [String.data_append, String.data_append, String.data_append]
  rw [show (String.mk (stemOfName (musFilename url))).data = stemOfName (musFilename url)
    from rfl]
  rw [show ("_" : String).data = ['_'] from rfl]
  simp [List.append_assoc]

theorem musUniqueName_no_slash (url : String) : ∀ c ∈ (musUniqueName url).data, c ≠ '/' := by
  intro c hc
  rw [musUniqueName_data] at hc
  rcases List.mem_append.mp hc with h1 | h1
  · exact musFilename_no_slash url c (splitExtName_stem_mem h1)
  · rcases List.mem_cons.mp h1 with rfl | h2
    · decide
    · rcases List.mem_append.mp h2 with h3 | h3
      · exact md5hex8_ne_slash url c h3
      · exact musExtLow_no_slash url c h3

theorem musUniqueName_inj {u1 u2 : String}
    (hhash : md5hex8 u1 ≠ md5hex8 u2) (hext : musExtLow u1 = musExtLow u2) :
    musUniqueName u1 ≠ musUniqueName u2 := by
  intro hEq
  have hd : (musUniqueName u1).data = (musUniqueName u2).data := congrArg String.data hEq
  rw [musUniqueName_data, musUniqueName_data, hext] at hd
  have hd2 : (stemOfName (musFilename u1) ++ '_' :: (md5hex8 u1).data) ++ (musExtLow u2).data =
      (stemOfName (musFilename u2) ++ '_' :: (md5hex8 u2).data) ++ (musExtLow u2).data := by
    simpa [List.append_assoc] using hd
  have hd3 := List.append_cancel_right hd2
  have hd4 : (md5hex8 u1).data.reverse ++ '_' :: (stemOfName (musFilename u1)).reverse =
      (md5hex8 u2).data.reverse ++ '_' :: (stemOfName (musFilename u2)).reverse := by
    have := congrArg List.reverse hd3
    simpa [List.reverse_append, List.append_assoc] using this
  have hlen : (md5hex8 u1).data.reverse.length = (md5hex8 u2).data.reverse.length := by
    rw [List.length_reverse, List.length_reverse, md5hex8_data_length, md5hex8_data_length]
  have := (List.append_inj hd4 hlen).1
  apply hhash
  have hrev : (md5hex8 u1).data = (md5hex8 u2).data := by
    have := congrArg List.reverse this
    simpa using this
  calc md5hex8 u1 = String.mk (md5hex8 u1).data := rfl
    _ = String.mk (md5hex8 u2).data := by rw [hrev]
    _ = md5hex8 u2 := rfl

theorem append_slashfree_eq :
    ∀ (n1 n2 r1 r2 : List Char), (∀ c ∈ n1, c ≠ '/') → (∀ c ∈ n2, c ≠ '/') →
      n1 ++ '/' :: r1 = n2 ++ '/' :: r2 → n1 = n2 ∧ r1 = r2 := by
  intro n1
  induction n1 with
  | nil =>
    intro n2 r1 r2 _ h2 hEq
    cases n2 with
    | nil => simpa using hEq
    | cons c n2t =>
      exfalso
      have : '/' = c := by simpa using congrArg (fun l => l.headI) hEq
      exact h2 c (List.mem_cons_self c n2t) this.symm
  | cons c n1t ih =>
    intro n2 r1 r2 h1 h2 hEq
    cases n2 with
    | nil =>
      exfalso
      have : c = '/' := by simpa using congrArg (fun l => l.headI) hEq
      exact h1 c (List.mem_cons_self c n1t) this
    | cons c2 n2t =>
      have hc : c = c2 := by simpa using congrArg (fun l => l.headI) hEq
      have htail : n1t ++ '/' :: r1 = n2t ++ '/' :: r2 := by
        simpa using congrArg List.tail hEq
      obtain ⟨ha, hb⟩ := ih n2t r1 r2 (fun x hx => h1 x (List.mem_cons_of_mem c hx))
        (fun x hx => h2 x (List.mem_cons_of_mem c2 hx)) htail
      exact ⟨by rw [hc, ha], hb⟩

theorem musGetLocalPath_unique (od : String) (p1 p2 : ProbeResult) (u1 u2 lp1 lp2 : String)
    (h1 : musGetLocalPath od p1 u1 = some lp1)
    (h2 : musGetLocalPath od p2 u2 = some lp2)
    (hhash : md5hex8 u1 ≠ md5hex8 u2)
    (hext : musExtLow u1 = musExtLow u2) :
    lp1 ≠ lp2 := by
  rw [musGetLocalPath] at h1
  rw [musGetLocalPath] at h2
  split at h1
  · exact Option.noConfusion h1
  · split at h2
    · exact Option.noConfusion h2
    · have e1 : lp1 = od ++ "/" ++ musSubdir p1 u1 ++ "/" ++ musUniqueName u1 :=
        (Option.some.inj h1).symm
      have e2 : lp2 = od ++ "/" ++ musSubdir p2 u2 ++ "/" ++ musUniqueName u2 :=
        (Option.some.inj h2).symm
      intro hEq
      rw [e1, e2] at hEq
      have hdata := congrArg String.data hEq
      simp only [String.data_append] at hdata
      have hdata2 : od.data ++
          ('/' :: ((musSubdir p1 u1).data ++ '/' :: (musUniqueName u1).data)) = od.data ++
          ('/' :: ((musSubdir p2 u2).data ++ '/' :: (musUniqueName u2).data)) := by
        simpa [List.append_assoc] using hdata
      have h3 := List.append_cancel_left hdata2
      have h4 : (musSubdir p1 u1).data ++ '/' :: (musUniqueName u1).data =
          (musSubdir p2 u2).data ++ '/' :: (musUniqueName u2).data := by
        simpa using h3
      have h5 : (musUniqueName u1).data.reverse ++ '/' :: (musSubdir p1 u1).data.reverse =
          (musUniqueName u2).data.reverse ++ '/' :: (musSubdir p2 u2).data.reverse := by
        have hrev := congrArg List.reverse h4
        simpa [List.reverse_append, List.append_assoc] using hrev
      have h6 := append_slashfree_eq _ _ _ _
        (fun c hc => musUniqueName_no_slash u1 c (List.mem_reverse.mp hc))
        (fun c hc => musUniqueName_no_slash u2 c (List.mem_reverse.mp hc)) h5
      have h7 : (musUniqueName u1).data = (musUniqueName u2).data := by
        have := congrArg List.reverse h6.1
        simpa using this
      refine musUniqueName_inj hhash hext ?_
      calc musUniqueName u1 = String.mk (musUniqueName u1).data := rfl
        _ = String.mk (musUniqueName u2).data := by rw [h7]
        _ = musUniqueName u2 := rfl

theorem wdDownloadLoop_cases (st : WDState) (url lp fp : String) (outc : Nat → FetchOutcome) :
    ∀ r a, (wdDownloadLoop st url lp fp outc a r).1 = st ∨
      ∃ b, (wdDownloadLoop st url lp fp outc a r).1 =
        { mapping := mapInsert st.mapping url lp,
          downloaded := st.downloaded ++ [url],
          disk := st.disk ++ [(fp, b)] } := by
  intro r
  induction r with
  | zero => intro a; left; rfl
  | succ r2 ih =>
    intro a
    rw [wdDownloadLoop]
    split
    · next body hout => right; exact ⟨body, rfl⟩
    · exact ih (a + 1)
    · split
      · left; rfl
      · exact ih (a + 1)

theorem values_nodup_lookup_inj {m : Mapping} {u1 u2 v : String}
    (hnd : (m.map (fun p => p.2)).Nodup)
    (h1 : mapLookup m u1 = some v) (h2 : mapLookup m u2 = some v) : u1 = u2 := by
  induction m with
  | nil => simp [mapLookup] at h1
  | cons p rest ih =>
    rw [mapLookup] at h1 h2
    rw [List.map_cons, List.nodup_cons] at hnd
    split at h1
    · next hk1 =>
      split at h2
      · next hk2 => rw [← hk1, ← hk2]
      · exfalso
        have hv : p.2 = v := Option.some.inj h1
        have hmem : v ∈ rest.map (fun q => q.2) :=
          List.mem_map.mpr ⟨_, mapLookup_mem h2, rfl⟩
        exact hnd.1 (hv ▸ hmem)
    · split at h2
      · next hk2 =>
        exfalso
        have hv : p.2 = v := Option.some.inj h2
        have hmem : v ∈ rest.map (fun q => q.2) :=
          List.mem_map.mpr ⟨_, mapLookup_mem h1, rfl⟩
        exact hnd.1 (hv ▸ hmem)
      · exact ih hnd.2 h1 h2

theorem wdInv_insert (urls : List String) (st : WDState) (u0 lp fp : String) (b : List Nat)
    (hmem : u0 ∈ urls)
    (hndl : wdNormUrl u0 ∉ st.downloaded)
    (hinv : wdInv urls st)
    (hname : some lp = wdPlainName u0 ∨ some lp = wdHashName u0)
    (hvals : ∀ v ∈ st.mapping.map (fun p => p.2), v ≠ lp) :
    wdInv urls
      { mapping := mapInsert st.mapping (wdNormUrl u0) lp,
        downloaded := st.downloaded ++ [wdNormUrl u0],
        disk := st.disk ++ [(fp, b)] } := by
  obtain ⟨hdl, hknd, hvnd, hsrc⟩ := hinv
  have hkeys : wdNormUrl u0 ∉ st.mapping.map (fun p => p.1) := by
    intro hk
    obtain ⟨p, hp, hpk⟩ := List.mem_map.mp hk
    exact hndl (hpk ▸ hdl p hp)
  have hins : mapInsert st.mapping (wdNormUrl u0) lp = st.mapping ++ [(wdNormUrl u0, lp)] :=
    mapInsert_of_not_contains (mapContains_eq_false_iff.mpr hkeys)
  rw [wdInv, hins]
  refine ⟨?_, ?_, ?_, ?_⟩
  · intro p hp
    rcases List.mem_append.mp hp with h1 | h1
    · exact List.mem_append_left _ (hdl p h1)
    · simp only [List.mem_singleton] at h1
      rw [h1]
      exact List.mem_append_right _ (List.mem_singleton.mpr rfl)
  · rw [List.map_append]
    rw [List.nodup_append]
    refine ⟨hknd, List.nodup_singleton _, ?_⟩
    intro a ha hb
    simp only [List.map_cons, List.map_nil, List.mem_singleton] at hb
    rw [hb] at ha
    exact hkeys ha
  · rw [List.map_append]
    rw [List.nodup_append]
    refine ⟨hvnd, List.nodup_singleton _, ?_⟩
    intro a ha hb
    simp only [List.map_cons, List.map_nil, List.mem_singleton] at hb
    exact hvals a ha hb
  · intro p hp
    rcases List.mem_append.mp hp with h1 | h1
    · exact hsrc p h1
    · simp only [List.mem_singleton] at h1
      rw [h1]
      exact ⟨u0, hmem, rfl, hname⟩

theorem wdHash_values_fresh (urls : List String) (st : WDState) (u0 subdir ext : String)
    (hse : wdSubdirExt u0 = some (subdir, ext))
    (hfresh : ∀ u1 ∈ urls, ∀ u2 ∈ urls, u1 ≠ u2 →
      (wdHashName u1).isSome = true →
      wdHashName u1 ≠ wdHashName u2 ∧ wdHashName u1 ≠ wdPlainName u2)
    (hmem : u0 ∈ urls)
    (hndl : wdNormUrl u0 ∉ st.downloaded)
    (hinv : wdInv urls st) :
    ∀ v ∈ st.mapping.map (fun p => p.2),
      v ≠ subdir ++ "/" ++ (String.mk (stemOfName (wdOriginalFilename u0).data) ++ "_" ++
        md5hex8 (wdNormUrl u0) ++ ext) := by
  intro v hv hEq
  obtain ⟨p, hp, rfl⟩ := List.mem_map.mp hv
  obtain ⟨u2, hu2mem, hkey, hname⟩ := hinv.2.2.2 p hp
  have hne : u0 ≠ u2 := by
    intro h
    apply hndl
    rw [h, ← hkey]
    exact hinv.1 p hp
  have hhash0 : wdHashName u0 = some (subdir ++ "/" ++
      (String.mk (stemOfName (wdOriginalFilename u0).data) ++ "_" ++
        md5hex8 (wdNormUrl u0) ++ ext)) := by
    rw [wdHashName, hse]
    rfl
  have hf := hfresh u0 hmem u2 hu2mem hne (by rw [hhash0]; rfl)
  rcases hname with hn | hn
  · apply hf.2
    rw [hhash0, ← hn]
    exact congrArg some hEq.symm
  · apply hf.1
    rw [hhash0, ← hn]
    exact congrArg some hEq.symm

theorem wdAlloc_spec (cfg : WDConfig) (st : WDState) (u0 subdir ext : String)
    (hse : wdSubdirExt u0 = some (subdir, ext)) :
    (some (wdAllocLocalPath cfg st u0 subdir ext) = wdPlainName u0 ∧
      wdAllocLocalPath cfg st u0 subdir ext ∉ mapValues st.mapping) ∨
    some (wdAllocLocalPath cfg st u0 subdir ext) = wdHashName u0 := by
  rw [wdAllocLocalPath]
  by_cases hnr : wdOriginalFilename u0 = "noroot.png"
  · right
    simp only [hnr, if_true, if_pos]
    rw [wdHashName, hse, hnr]
    rfl
  · simp only [hnr, if_false, ite_false]
    by_cases hcol : (pathExistsOnDisk st (cfg.outputDir ++ "/" ++
        (subdir ++ "/" ++ (String.mk (stemOfName (wdOriginalFilename u0).data) ++ ext))) ||
        decide ((subdir ++ "/" ++ (String.mk (stemOfName (wdOriginalFilename u0).data) ++
          ext)) ∈ mapValues st.mapping)) = true
    · right
      rw [if_pos hcol]
      rw [wdHashName, hse]
      rfl
    · left
      rw [if_neg hcol]
      constructor
      · rw [wdPlainName, hse]
        rfl
      · intro hmem2
        apply hcol
        simp [hmem2]

theorem wdStep_preserves (cfg : WDConfig) (urls : List String) (st : WDState) (u0 : String)
    (outc : Nat → FetchOutcome)
    (hfresh : ∀ u1 ∈ urls, ∀ u2 ∈ urls, u1 ≠ u2 →
      (wdHashName u1).isSome = true →
      wdHashName u1 ≠ wdHashName u2 ∧ wdHashName u1 ≠ wdPlainName u2)
    (hmem : u0 ∈ urls) (hinv : wdInv urls st) :
    wdInv urls (wdDownloadResource cfg st u0 outc).1 := by
  rw [wdDownloadResource]
  split
  · exact hinv
  · cases hse : wdSubdirExt u0 with
    | none => exact hinv
    | some se =>
      obtain ⟨subdir, ext⟩ := se
      by_cases hdl : wdNormUrl u0 ∈ st.downloaded
      · simp only [if_pos hdl]
        exact hinv
      · simp only [if_neg hdl]
        rcases wdDownloadLoop_cases st (wdNormUrl u0)
            (wdAllocLocalPath cfg st u0 subdir ext)
            (cfg.outputDir ++ "/" ++ wdAllocLocalPath cfg st u0 subdir ext) outc 3 0 with
          hc | ⟨b, hc⟩
        · rw [hc]
          exact hinv
        · rw [hc]
          rcases wdAlloc_spec cfg st u0 subdir ext hse with ⟨hplain, hnot⟩ | hhash
          · exact wdInv_insert urls st u0 _ _ b hmem hdl hinv (Or.inl hplain)
              (fun v hv hEq => hnot (hEq ▸ hv))
          · have hhterm : wdAllocLocalPath cfg st u0 subdir ext =
                subdir ++ "/" ++ (String.mk (stemOfName (wdOriginalFilename u0).data) ++ "_" ++
                  md5hex8 (wdNormUrl u0) ++ ext) := by
              have h2 : wdHashName u0 = some (subdir ++ "/" ++
                  (String.mk (stemOfName (wdOriginalFilename u0).data) ++ "_" ++
                    md5hex8 (wdNormUrl u0) ++ ext)) := by
                rw [wdHashName, hse]
                rfl
              rw [h2] at hhash
              exact Option.some.inj hhash
            exact wdInv_insert urls st u0 _ _ b hmem hdl hinv (Or.inr hhash)
              (fun v hv hEq => by
                have := wdHash_values_fresh urls st u0 subdir ext hse hfresh hmem hdl hinv v hv
                rw [hhterm] at hEq
                exact this hEq)

theorem wdInv_init (urls : List String) : wdInv urls exSt0 := by
  refine ⟨?_, ?_, ?_, ?_⟩ <;> simp [wdInv, exSt0]

theorem wdRunAll_inv (cfg : WDConfig) (urls : List String)
    (hfresh : ∀ u1 ∈ urls, ∀ u2 ∈ urls, u1 ≠ u2 →
      (wdHashName u1).isSome = true →
      wdHashName u1 ≠ wdHashName u2 ∧ wdHashName u1 ≠ wdPlainName u2) :
    ∀ (items : List (String × (Nat → FetchOutcome))) (st : WDState),
      (∀ it ∈ items, it.1 ∈ urls) → wdInv urls st → wdInv urls (wdRunAll cfg items st) := by
  intro items
  induction items with
  | nil => intro st _ hinv; exact hinv
  | cons it rest ih =>
    intro st hmem hinv
    rw [wdRunAll, List.foldl_cons]
    rw [show rest.foldl (fun s it2 => (wdDownloadResource cfg s it2.1 it2.2).1)
        (wdDownloadResource cfg st it.1 it.2).1 =
      wdRunAll cfg rest (wdDownloadResource cfg st it.1 it.2).1 from rfl]
    exact ih _ (fun x hx => hmem x (List.mem_cons_of_mem it hx))
      (wdStep_preserves cfg urls st it.1 it.2 hfresh (hmem it (List.mem_cons_self it rest)) hinv)

/-- C1 counterexample: with all three downloads succeeding, the run first
    maps http://b.com/a_4bf95c9d.jpg to its plain name images/a_4bf95c9d.jpg,
    then http://a.com/a.jpg to images/a.jpg; http://c.com/a.jpg now collides
    on its plain candidate images/a.jpg and falls back to the hash-suffixed
    name a_ plus md5("http://c.com/a.jpg") prefix 4bf95c9d — which equals the
    first URL's path. Two distinct mapped URLs share one local path, so the
    uniqueness claim fails: the hash fallback is never itself re-checked for
    collisions. -/
theorem C1_counterexample :
    mapLookup (wdRunAll exCfg
        [("http://b.com/a_4bf95c9d.jpg", fun _ => FetchOutcome.resp 200 [7]),
         ("http://a.com/a.jpg", fun _ => FetchOutcome.resp 200 [7]),
         ("http://c.com/a.jpg", fun _ => FetchOutcome.resp 200 [7])] exSt0).mapping
      "http://b.com/a_4bf95c9d.jpg" = some "images/a_4bf95c9d.jpg" ∧
    mapLookup (wdRunAll exCfg
        [("http://b.com/a_4bf95c9d.jpg", fun _ => FetchOutcome.resp 200 [7]),
         ("http://a.com/a.jpg", fun _ => FetchOutcome.resp 200 [7]),
         ("http://c.com/a.jpg", fun _ => FetchOutcome.resp 200 [7])] exSt0).mapping
      "http://c.com/a.jpg" = some "images/a_4bf95c9d.jpg" ∧
    ("http://b.com/a_4bf95c9d.jpg" : String) ≠ "http://c.com/a.jpg" := by
  refine ⟨by decide, by decide, by decide⟩

/-- C1 amended: local-path uniqueness holds with provisos. In
    MusicianDownloader, two URLs with the same lowercased extension receive
    distinct paths whenever their 8-character md5 prefixes differ (the hash
    is always appended). In a sequential WebsiteDownloader run from a clean
    state, all mapped URLs receive distinct paths provided no URL's
    hash-fallback name coincides with another URL's hash-fallback or plain
    candidate name — the code checks only the plain candidate against
    existing paths and trusts the fallback blindly (see the
    counterexample). -/
theorem C1_amended :
    (∀ od p1 p2 u1 u2 lp1 lp2,
        musGetLocalPath od p1 u1 = some lp1 →
        musGetLocalPath od p2 u2 = some lp2 →
        md5hex8 u1 ≠ md5hex8 u2 → musExtLow u1 = musExtLow u2 → lp1 ≠ lp2) ∧
    (∀ cfg (items : List (String × (Nat → FetchOutcome))) u1 u2 lp1 lp2,
        (∀ ua ∈ items.map (fun it => it.1), ∀ ub ∈ items.map (fun it => it.1), ua ≠ ub →
          (wdHashName ua).isSome = true →
          wdHashName ua ≠ wdHashName ub ∧ wdHashName ua ≠ wdPlainName ub) →
        mapLookup (wdRunAll cfg items exSt0).mapping u1 = some lp1 →
        mapLookup (wdRunAll cfg items exSt0).mapping u2 = some lp2 →
        u1 ≠ u2 → lp1 ≠ lp2) := by
  constructor
  · intro od p1 p2 u1 u2 lp1 lp2 h1 h2 hhash hext
    exact musGetLocalPath_unique od p1 p2 u1 u2 lp1 lp2 h1 h2 hhash hext
  · intro cfg items u1 u2 lp1 lp2 hfresh h1 h2 hne
    intro hlp
    have hinv := wdRunAll_inv cfg (items.map (fun it => it.1)) hfresh items exSt0
      (fun it hit => List.mem_map.mpr ⟨it, hit, rfl⟩) (wdInv_init _)
    exact hne (values_nodup_lookup_inj hinv.2.2.1 h1 (hlp ▸ h2))

/-- C1 witness: the amended theorem applied concretely. First part: two .jpg
    URLs with different md5 prefixes receive different musician paths.
    Second part: a two-URL WebsiteDownloader run with distinct basenames
    satisfies the freshness hypotheses and maps the URLs to distinct local
    paths. -/
theorem C1_witness :
    (("out/images/x_dbcab8ab.jpg" : String) ≠ "out/images/y_a08b4fad.jpg") ∧
    (("images/a.jpg" : String) ≠ "images/b.jpg") := by
  constructor
  · exact C1_amended.1 "out" ProbeResult.exc ProbeResult.exc
      "https://a.com/x.jpg" "https://b.com/y.jpg" _ _ (by decide) (by decide)
      (by decide) (by decide)
  · exact C1_amended.2 exCfg
      [("http://a.com/a.jpg", fun _ => FetchOutcome.resp 200 [7]),
       ("http://b.com/b.jpg", fun _ => FetchOutcome.resp 200 [7])]
      "http://a.com/a.jpg" "http://b.com/b.jpg" _ _ (by decide) (by decide) (by decide)
      (by decide)
